import Mathlib

/-!
Verification development for the deterministic review core of the `ebert`
repository.  Text is modelled as `List Char`; a Python string `s` corresponds
to `s.toList`.  Every definition is a direct translation of the Python source
named in its doc comment (files `src/ebert/rules/engine.py`,
`src/ebert/diff/extractor.py`, `src/ebert/models.py`).
-/

set_option maxHeartbeats 1000000

namespace Ebert

/-- Python `needle_startswith`: `pyStartsWith p s` is `s.startswith(p)` for
`s`, `p` modelled as char lists. -/
def pyStartsWith : List Char → List Char → Bool
  | [], _ => true
  | _ :: _, [] => false
  | c :: cs, d :: ds => c == d && pyStartsWith cs ds

/-- Prepend a char to the first piece of a split (helper for `split`-style
functions). -/
def consHead (c : Char) : List (List Char) → List (List Char)
  | [] => [[c]]
  | l :: ls => (c :: l) :: ls

/-- Python `s.split("\n")`: split a char list at every newline; yields one
more piece than there are newlines, keeping empty pieces (`[""]` for `""`). -/
def splitNl : List Char → List (List Char)
  | [] => [[]]
  | c :: cs =>
    if c = '\n' then [] :: splitNl cs
    else consHead c (splitNl cs)

/-- Python `"\n".join(lines)`. -/
def joinNl : List (List Char) → List Char
  | [] => []
  | [l] => l
  | l :: ls => l ++ '\n' :: joinNl ls

/-- Python `sep.join(parts)` for an arbitrary separator. -/
def joinSep (sep : List Char) : List (List Char) → List Char
  | [] => []
  | [l] => l
  | l :: ls => l ++ sep ++ joinSep sep ls

/-- Take the maximal leading run of ASCII digits, returning it and the rest. -/
def takeDigits : List Char → List Char × List Char
  | [] => ([], [])
  | c :: cs =>
    if c.isDigit then
      match takeDigits cs with
      | (ds, rest) => (c :: ds, rest)
    else ([], c :: cs)

/-- Numeric value of a digit run, as Python `int` reads it. -/
def digitsVal (ds : List Char) : Nat :=
  ds.foldl (fun n c => n * 10 + (c.toNat - '0'.toNat)) 0

/-- Strip a literal pattern from the front, or fail. -/
def dropLit : List Char → List Char → Option (List Char)
  | [], s => some s
  | _ :: _, [] => none
  | c :: cs, d :: ds => if c = d then dropLit cs ds else none

/-- The optional regex group `(?:,\d+)?`: a comma must be followed by at
least one digit, which is consumed; a comma with no digit fails the whole
match (the regex cannot backtrack past it, since the next required character
is a space); anything else is left untouched. -/
def skipCommaCount (s : List Char) : Option (List Char) :=
  match s with
  | ',' :: rest =>
    match takeDigits rest with
    | ([], _) => none
    | (_ :: _, rest2) => some rest2
  | _ => some s

/-- `_HUNK_HEADER.match(line)` from `rules/engine.py`: the anchored regex
`@@ -\d+(?:,\d+)? \+(\d+)(?:,\d+)? @@` applied as a prefix match, returning
the captured target-side start (group 1).  Digits are ASCII, as produced by
git (Python `\d` would also accept other Unicode decimals). -/
def parseHunkHeader (line : List Char) : Option Nat :=
  match dropLit "@@ -".toList line with
  | none => none
  | some r1 =>
    match takeDigits r1 with
    | ([], _) => none
    | (_ :: _, r2) =>
      match skipCommaCount r2 with
      | none => none
      | some r3 =>
        match dropLit " +".toList r3 with
        | none => none
        | some r4 =>
          match takeDigits r4 with
          | ([], _) => none
          | (ds@(_ :: _), r5) =>
            match skipCommaCount r5 with
            | none => none
            | some r6 =>
              match dropLit " @@".toList r6 with
              | none => none
              | some _ => some (digitsVal ds)

/-- State of the line loop in `_extract_content_with_line_map`
(`rules/engine.py`).  The Python dict `line_map` always receives strictly
increasing fresh keys `1, 2, ...`, so an association list in insertion order
models it exactly. -/
structure ExtractState where
  lines : List (List Char)
  line_map : List (Nat × Nat)
  current_file_line : Nat
  is_diff_format : Bool
deriving Repr, DecidableEq

/-- One iteration of the loop body of `_extract_content_with_line_map`. -/
def extractStep (st : ExtractState) (line : List Char) : ExtractState :=
  if pyStartsWith "---".toList line || pyStartsWith "+++".toList line then
    { st with is_diff_format := true }
  else
    match parseHunkHeader line with
    | some n => { st with is_diff_format := true, current_file_line := n }
    | none =>
      if pyStartsWith "-".toList line then st
      else if pyStartsWith "+".toList line then
        { st with
          lines := st.lines ++ [line.tail]
          line_map := st.line_map ++ [(st.lines.length + 1, st.current_file_line)]
          current_file_line := st.current_file_line + 1 }
      else
        { st with
          lines := st.lines ++ [line]
          line_map := st.line_map ++ [(st.lines.length + 1, st.current_file_line)]
          current_file_line := st.current_file_line + 1 }

/-- `_extract_content_with_line_map` from `rules/engine.py`: extract content
from diff format together with the (position ↦ original line) map; when no
diff marker was ever seen the map is forced to the identity. -/
def extract_content_with_line_map (diff_content : List Char) :
    List Char × List (Nat × Nat) :=
  let st := (splitNl diff_content).foldl extractStep ⟨[], [], 1, false⟩
  let lm :=
    if st.is_diff_format then st.line_map
    else (List.range' 1 st.lines.length).map (fun i => (i, i))
  (joinNl st.lines, lm)

/-- `_format_as_diff` from `diff/extractor.py`: wrap file content as a
synthetic fully-added unified diff. -/
def format_as_diff (path content : List Char) : List Char :=
  let lines := if content = [] then [] else splitNl content
  let line_count := lines.length
  let header := joinNl [
    "diff --git a/".toList ++ path ++ " b/".toList ++ path,
    "new file mode 100644".toList,
    "--- /dev/null".toList,
    "+++ b/".toList ++ path,
    "@@ -0,0 +1,".toList ++ (Nat.repr line_count).toList ++ " @@".toList]
  let body := joinNl (lines.map (fun l => '+' :: l))
  header ++ '\n' :: body

/-- Python `line.split(" b/")` as used by `parse_diff_output`: greedy
left-to-right split on the literal separator `" b/"`. -/
def splitB : List Char → List (List Char)
  | [] => [[]]
  | ' ' :: 'b' :: '/' :: rest => [] :: splitB rest
  | c :: rest => consHead c (splitB rest)

/-- Python `parts[-1] if len(parts) > 1 else None`. -/
def lastIfMany (ps : List (List Char)) : Option (List Char) :=
  if ps.length > 1 then ps.getLast? else none

/-- The ASCII whitespace stripped by Python `str.strip()`.  (Python also
strips further Unicode whitespace; that cannot change `parse_diff_output`'s
result, because an input whose lines are all non-`diff --git` lines yields
`[]` through the main loop as well.) -/
def pyIsSpace (c : Char) : Bool :=
  c == ' ' || c == '\t' || c == '\n' || c == '\r' || c == '\x0b' || c == '\x0c'

/-- Python `not s.strip()`: the text is empty or whitespace-only. -/
def isBlank (s : List Char) : Bool := s.all pyIsSpace

/-- `FileDiff` from `models.py`: a single file's diff block. -/
structure FileDiff where
  path : List Char
  content : List Char
  is_new : Bool
  is_deleted : Bool
deriving Repr, DecidableEq

/-- State of the line loop in `parse_diff_output` (`diff/extractor.py`). -/
structure ParseState where
  files : List FileDiff
  current_file : Option (List Char)
  current_content : List (List Char)
  is_new : Bool
  is_deleted : Bool
deriving Repr, DecidableEq

/-- The `if current_file is not None: files.append(...)` flush used both at
each `diff --git` boundary and after the loop. -/
def flushFile (st : ParseState) : List FileDiff :=
  match st.current_file with
  | some p => st.files ++ [⟨p, joinNl st.current_content, st.is_new, st.is_deleted⟩]
  | none => st.files

/-- One iteration of the loop body of `parse_diff_output`. -/
def parseStep (st : ParseState) (line : List Char) : ParseState :=
  if pyStartsWith "diff --git".toList line then
    { files := flushFile st
      current_file := lastIfMany (splitB line)
      current_content := [line]
      is_new := false
      is_deleted := false }
  else if pyStartsWith "new file".toList line then
    { st with is_new := true, current_content := st.current_content ++ [line] }
  else if pyStartsWith "deleted file".toList line then
    { st with is_deleted := true, current_content := st.current_content ++ [line] }
  else
    match st.current_file with
    | some _ => { st with current_content := st.current_content ++ [line] }
    | none => st

/-- `parse_diff_output` from `diff/extractor.py`: parse raw git diff text
into structured per-file blocks. -/
def parse_diff_output (diff_output : List Char) : List FileDiff :=
  if isBlank diff_output then []
  else flushFile ((splitNl diff_output).foldl parseStep ⟨[], none, [], false, false⟩)

/-- A `diff --git` boundary line from which a path can be extracted
(`" b/"` occurs, so `line.split(" b/")` has more than one part). -/
def goodBoundary (l : List Char) : Bool :=
  pyStartsWith "diff --git".toList l && (lastIfMany (splitB l)).isSome

/-- `Severity` from `models.py`, in declaration order. -/
inductive Severity
  | critical
  | high
  | medium
  | low
  | info
deriving Repr, DecidableEq

/-- The `.value` string of each severity. -/
def severityValue : Severity → List Char
  | .critical => "critical".toList
  | .high => "high".toList
  | .medium => "medium".toList
  | .low => "low".toList
  | .info => "info".toList

/-- Iteration order of `for sev_enum in Severity` (declaration order). -/
def severityOrder : List Severity :=
  [.critical, .high, .medium, .low, .info]

/-- `RuleMatch` from `rules/base.py`. -/
structure RuleMatch where
  line : Option Nat
  severity : Severity
  message : List Char
  suggestion : Option (List Char)
deriving Repr, DecidableEq

/-- `ReviewComment` from `models.py`. -/
structure ReviewComment where
  file : List Char
  line : Option Nat
  severity : Severity
  message : List Char
  suggestion : Option (List Char)
deriving Repr, DecidableEq

/-- `ReviewResult` from `models.py` (comments, summary, provider/model
labels). -/
structure ReviewResult where
  comments : List ReviewComment
  summary : List Char
  provider : List Char
  model : List Char
deriving Repr, DecidableEq

/-- The test `c.severity in (Severity.HIGH, Severity.CRITICAL)`. -/
def isSevere (c : ReviewComment) : Bool :=
  decide (c.severity = Severity.high) || decide (c.severity = Severity.critical)

/-- `ReviewResult.has_severe_issues` from `models.py`: whether any (visible)
comment is HIGH or CRITICAL. -/
def has_severe_issues (r : ReviewResult) : Bool :=
  r.comments.any isSevere

/-- A rule as used by `RuleEngine.review` when a rule list is supplied:
an identifier and a pure `check(path, content)`.  (`name`/`focus_area` are
unused on this path and omitted.) -/
structure Rule where
  id : List Char
  check : List Char → List Char → List RuleMatch

/-- A rule whose `check` may raise: `Except ε` models Python exception flow
(`.error e` is an uncaught exception `e`). -/
structure RuleE (ε : Type) where
  id : List Char
  check : List Char → List Char → Except ε (List RuleMatch)

/-- `DiffContext` from `models.py` (the `base_ref`/`target_ref` provenance
labels are not consumed by the rule engine and are omitted). -/
structure DiffContext where
  files : List FileDiff
deriving Repr, DecidableEq

/-- `ReviewContext` from `models.py`, restricted to the fields
`RuleEngine.review` reads when rules are supplied explicitly: the diff and
the nonnegative `max_comments` limit. -/
structure ReviewContext where
  diff : DiffContext
  max_comments : Nat
deriving Repr, DecidableEq

/-- Python `line_map.get(k, k)` over the association-list model of the
line-number dict. -/
def dictGet (lm : List (Nat × Nat)) (k : Nat) : Nat :=
  (lm.lookup k).getD k

/-- Building one `ReviewComment` from a `RuleMatch` inside
`RuleEngine.review`: translate the line through the map and prefix the
message with the rule id in brackets. -/
def mkComment (file ruleId : List Char) (lm : List (Nat × Nat))
    (m : RuleMatch) : ReviewComment :=
  { file := file
    line := m.line.map (dictGet lm)
    severity := m.severity
    message := '[' :: ruleId ++ ']' :: ' ' :: m.message
    suggestion := m.suggestion }

/-- The inner `for rule in self._rules` loop of `RuleEngine.review` on one
file's extracted content. -/
def runRules (lm : List (Nat × Nat)) (path content : List Char) :
    List Rule → List ReviewComment
  | [] => []
  | r :: rs =>
    (r.check path content).map (mkComment path r.id lm)
      ++ runRules lm path content rs

/-- Comments contributed by a single file (deleted files are skipped). -/
def fileComments (rules : List Rule) (fd : FileDiff) : List ReviewComment :=
  if fd.is_deleted then []
  else
    let ec := extract_content_with_line_map fd.content
    runRules ec.2 fd.path ec.1 rules

/-- The full untruncated comment sequence of `RuleEngine.review`: file order,
then rule order, then each rule's emission order. -/
def allComments (rules : List Rule) : List FileDiff → List ReviewComment
  | [] => []
  | fd :: rest => fileComments rules fd ++ allComments rules rest

/-- `RuleEngine._generate_summary` from `rules/engine.py`. -/
def generate_summary (comments : List ReviewComment) (max_shown : Nat) :
    List Char :=
  if comments = [] then "No issues found.".toList
  else
    let parts := severityOrder.filterMap fun sev =>
      let n := comments.countP fun c => decide (c.severity = sev)
      if n > 0 then some ((Nat.repr n).toList ++ ' ' :: severityValue sev)
      else none
    let base := "Found ".toList ++ (Nat.repr comments.length).toList
      ++ " issue".toList ++ (if comments.length ≠ 1 then ['s'] else [])
    let withParts :=
      if parts = [] then base
      else base ++ ": ".toList ++ joinSep ", ".toList parts
    let withDot := withParts ++ ['.']
    if comments.length > max_shown then
      withDot ++ " (showing first ".toList
        ++ (Nat.repr max_shown).toList ++ [')']
    else withDot

/-- `RuleEngine.review` from `rules/engine.py` with an explicitly supplied
rule list (so the lazy registry load is not taken). -/
def review (rules : List Rule) (context : ReviewContext) : ReviewResult :=
  let all := allComments rules context.diff.files
  { comments := all.take context.max_comments
    summary := generate_summary all context.max_comments
    provider := "deterministic".toList
    model := "rules-v1".toList }

/-- The inner rule loop with Python exception flow: the first `check` that
raises aborts the iteration and the exception propagates unchanged. -/
def runRulesE {ε : Type} (lm : List (Nat × Nat)) (path content : List Char) :
    List (RuleE ε) → Except ε (List ReviewComment)
  | [] => .ok []
  | r :: rs =>
    match r.check path content with
    | .error e => .error e
    | .ok ms =>
      match runRulesE lm path content rs with
      | .error e => .error e
      | .ok rest => .ok (ms.map (mkComment path r.id lm) ++ rest)

/-- The file loop of `RuleEngine.review` with Python exception flow. -/
def allCommentsE {ε : Type} (rules : List (RuleE ε)) :
    List FileDiff → Except ε (List ReviewComment)
  | [] => .ok []
  | fd :: rest =>
    if fd.is_deleted then allCommentsE rules rest
    else
      match runRulesE (extract_content_with_line_map fd.content).2 fd.path
          (extract_content_with_line_map fd.content).1 rules with
      | .error e => .error e
      | .ok cs =>
        match allCommentsE rules rest with
        | .error e => .error e
        | .ok more => .ok (cs ++ more)

/-- `RuleEngine.review` with Python exception flow: an uncaught rule
exception aborts the run before any `ReviewResult` is built; nothing in the
source catches or re-raises it. -/
def reviewE {ε : Type} (rules : List (RuleE ε)) (context : ReviewContext) :
    Except ε ReviewResult :=
  match allCommentsE rules context.diff.files with
  | .error e => .error e
  | .ok all =>
    .ok { comments := all.take context.max_comments
          summary := generate_summary all context.max_comments
          provider := "deterministic".toList
          model := "rules-v1".toList }

/-- A filesystem path modelled by its `pathlib` `parts` tuple. -/
abbrev PathT := List (List Char)

/-- `_FALLBACK_EXCLUDES` from `diff/extractor.py`. -/
def FALLBACK_EXCLUDES : List (List Char) :=
  ["node_modules".toList, ".git".toList, "__pycache__".toList,
   ".venv".toList, "venv".toList, "dist".toList, "build".toList,
   ".next".toList, "target".toList, "vendor".toList]

/-- Python `not (set(path.parts) & _FALLBACK_EXCLUDES)`: no component of the
path is a fallback-excluded name. -/
def fallbackOk (p : PathT) : Bool :=
  !(p.any fun part => FALLBACK_EXCLUDES.contains part)

/-- `_filter_with_fallback` from `diff/extractor.py`. -/
def filter_with_fallback (paths : List PathT) : List PathT :=
  paths.filter fallbackOk

/-- The external collaborators of the ignore filter: `gitRootOf` models
`_find_git_root` (whose per-directory cache is pure memoization), and
`checkIgnore root rels` models the batched `git check-ignore --stdin -z`
subprocess: `none` is a `FileNotFoundError` (tool absent — the only
exception the call can raise, since `check=True` is not passed), and
`some out` is the parsed NUL-separated ignored subset from stdout. -/
structure IgnoreEnv where
  gitRootOf : PathT → Option PathT
  checkIgnore : PathT → List (List Char) → Option (List (List Char))

/-- Whether `root`'s parts are a prefix of `p`'s parts. -/
def partsPrefix : PathT → PathT → Bool
  | [], _ => true
  | _ :: _, [] => false
  | x :: xs, y :: ys => decide (x = y) && partsPrefix xs ys

/-- Python `str(p.relative_to(base_path))`: the remaining parts joined with
`/` when `base_path` is an ancestor, `none` (a `ValueError`, the path is
skipped) otherwise. -/
def relStr (root p : PathT) : Option (List Char) :=
  if partsPrefix root p then
    some (if p.drop root.length = [] then ".".toList
          else joinSep ['/'] (p.drop root.length))
  else none

/-- Python dict assignment `d[k] = v`: overwrite in place when the key
exists, append otherwise. -/
def dictInsert (pm : List (List Char × PathT)) (k : List Char) (v : PathT) :
    List (List Char × PathT) :=
  if (pm.lookup k).isSome then
    pm.map fun kv => if kv.1 = k then (k, v) else kv
  else pm ++ [(k, v)]

/-- One iteration of the `path_map` construction loop of
`_filter_with_git`. -/
def pmStep (root : PathT) (pm : List (List Char × PathT)) (p : PathT) :
    List (List Char × PathT) :=
  match relStr root p with
  | none => pm
  | some rel => dictInsert pm rel p

/-- The `path_map` construction of `_filter_with_git`: relative-path string
to original path, in insertion order, skipping non-relativizable paths. -/
def buildPathMap (paths : List PathT) (root : PathT) :
    List (List Char × PathT) :=
  paths.foldl (pmStep root) []

/-- `_filter_with_git` from `diff/extractor.py`: batch-query one root; on
tool failure return all the paths unchanged (fail-open, fallback applied by
the caller). -/
def filter_with_git (env : IgnoreEnv) (paths : List PathT) (root : PathT) :
    List PathT :=
  if paths = [] then []
  else
    if buildPathMap paths root = [] then []
    else
      match env.checkIgnore root ((buildPathMap paths root).map Prod.fst) with
      | none => paths
      | some ignored =>
        ((buildPathMap paths root).filter
          fun kv => !(ignored.contains kv.1)).map Prod.snd

/-- Python `by_repo[git_root].append(p)` over an insertion-ordered dict. -/
def appendToGroup : List (PathT × List PathT) → PathT → PathT →
    List (PathT × List PathT)
  | [], r, p => [(r, [p])]
  | (r', ps) :: rest, r, p =>
    if r' = r then (r', ps ++ [p]) :: rest
    else (r', ps) :: appendToGroup rest r p

/-- One iteration of the grouping loop of `_filter_ignored_paths`. -/
def groupStep (env : IgnoreEnv)
    (acc : List (PathT × List PathT) × List PathT) (p : PathT) :
    List (PathT × List PathT) × List PathT :=
  match env.gitRootOf p with
  | some r => (appendToGroup acc.1 r p, acc.2)
  | none => (acc.1, acc.2 ++ [p])

/-- The grouping phase of `_filter_ignored_paths`: paths grouped by git
root in first-occurrence order, plus the rootless fallback bucket. -/
def groupByRoot (env : IgnoreEnv) (paths : List PathT) :
    List (PathT × List PathT) × List PathT :=
  paths.foldl (groupStep env) ([], [])

/-- The `git_filtered.extend(...)` loop of `_filter_ignored_paths`. -/
def gitFilteredAll (env : IgnoreEnv) : List (PathT × List PathT) → List PathT
  | [] => []
  | g :: gs => filter_with_git env g.2 g.1 ++ gitFilteredAll env gs

/-- `_filter_ignored_paths` from `diff/extractor.py`. -/
def filter_ignored_paths (env : IgnoreEnv) (paths : List PathT) :
    List PathT :=
  if paths = [] then []
  else
    let grouped := groupByRoot env paths
    filter_with_fallback (gitFilteredAll env grouped.1 ++ grouped.2)

/-- The sub-list of `paths` whose discovered git root is `r`, in order:
what `by_repo[r]` holds after grouping. -/
def rootGroup (env : IgnoreEnv) (paths : List PathT) (r : PathT) :
    List PathT :=
  paths.filter fun q => decide (env.gitRootOf q = some r)

/-- The relative-path strings sent to `git check-ignore` for root `r`. -/
def relKeys (env : IgnoreEnv) (paths : List PathT) (r : PathT) :
    List (List Char) :=
  (buildPathMap (rootGroup env paths r) r).map Prod.fst

/-- A line the extractor drops without retaining it: a `---`/`+++` file
header, a parsable hunk header, or a removal line. -/
def droppedLine (l : List Char) : Bool :=
  pyStartsWith "---".toList l || pyStartsWith "+++".toList l
    || (parseHunkHeader l).isSome || pyStartsWith "-".toList l

/-- The extractor's transformation of a non-header, non-hunk line: removal
lines are dropped, addition lines lose their leading `+`, any other line is
kept as-is. -/
def retainLine (l : List Char) : Option (List Char) :=
  if pyStartsWith "-".toList l then none
  else if pyStartsWith "+".toList l then some l.tail
  else some l

/-- First group with the given root key (keys are unique by construction). -/
def groupLook (gs : List (PathT × List PathT)) (r : PathT) : List PathT :=
  match gs with
  | [] => []
  | (r', ps) :: rest => if r' = r then ps else groupLook rest r

/-- Fixture: a non-deleted file whose content is the raw line `x`. -/
def wFile : FileDiff := ⟨"test.py".toList, "x".toList, false, false⟩

/-- Fixture: a rule emitting one INFO match on line 1 and one HIGH match on
line 2. -/
def wRuleTwo : Rule :=
  ⟨"TEST001".toList, fun _ _ =>
    [⟨some 1, Severity.info, "first".toList, none⟩,
     ⟨some 2, Severity.high, "second".toList, none⟩]⟩

/-- Fixture: a rule whose `check` raises the bare error `boom`. -/
def eRule : RuleE (List Char) :=
  ⟨"TEST001".toList, fun _ _ => Except.error "boom".toList⟩

/-- Fixture: a regular file literally named `build` (not inside any excluded
directory). -/
def p8 : PathT := ["project".toList, "build".toList]

/-- Fixture repository roots and candidate paths for the ignore filter. -/
def root1 : PathT := ["/".toList, "repo1".toList]

/-- Second fixture root. -/
def root2 : PathT := ["/".toList, "repo2".toList]

/-- Candidate under `root1`. -/
def pa : PathT := ["/".toList, "repo1".toList, "a.py".toList]

/-- Candidate under `root1` inside a fallback-excluded directory. -/
def pb : PathT := ["/".toList, "repo1".toList, "build".toList, "e.py".toList]

/-- Candidate under `root2`, ignored by that root's query. -/
def pc : PathT := ["/".toList, "repo2".toList, "c.py".toList]

/-- Candidate outside any repository. -/
def pf : PathT := ["/".toList, "nowhere".toList, "f.py".toList]

/-- Fixture environment: the query for `root1` fails (tool absent) while the
query for `root2` succeeds and reports `c.py` ignored. -/
def w5Env : IgnoreEnv :=
  { gitRootOf := fun p =>
      if p.take 2 = root1 then some root1
      else if p.take 2 = root2 then some root2
      else none
    checkIgnore := fun r _ =>
      if r = root1 then none else some ["c.py".toList] }

/-- Fixture candidate list spanning two roots and a rootless path. -/
def w5Paths : List PathT := [pa, pb, pc, pf]

/-- Invariant carried through the parser fold for the flag analysis: emitted
files satisfy the marker property, the in-progress block's lines are
newline-free, and each set flag is justified by a marker line of the
in-progress block. -/
def ParseMarkerInv (st : ParseState) : Prop :=
  (∀ fd ∈ st.files, fd.is_new = true → fd.is_deleted = true →
    (∃ l ∈ splitNl fd.content, pyStartsWith "new file".toList l = true) ∧
    (∃ l ∈ splitNl fd.content, pyStartsWith "deleted file".toList l = true)) ∧
  (∀ l ∈ st.current_content, '\n' ∉ l) ∧
  (st.is_new = true →
    ∃ l ∈ st.current_content, pyStartsWith "new file".toList l = true) ∧
  (st.is_deleted = true →
    ∃ l ∈ st.current_content, pyStartsWith "deleted file".toList l = true)

/-- Fixture: a malformed block carrying both a `new file` and a
`deleted file` marker line. -/
def s2input : List Char :=
  "diff --git a/x b/x\nnew file mode 100644\ndeleted file mode 100644".toList

/-- The `FileDiff` the parser produces for `s2input`. -/
def fd2 : FileDiff := ⟨"x".toList, s2input, true, true⟩

/-! General lemmas about the text primitives. -/

theorem splitNl_ne_nil (s : List Char) : splitNl s ≠ [] := by
  cases s with
  | nil => simp [splitNl]
  | cons c cs =>
    simp only [splitNl]
    split
    · simp
    · cases h : splitNl cs <;> simp [consHead]

theorem mem_consHead (c : Char) (ls : List (List Char)) (l : List Char)
    (hl : l ∈ consHead c ls) :
    (ls = [] ∧ l = [c]) ∨
      (∃ l₀ ls₀, ls = l₀ :: ls₀ ∧ (l = c :: l₀ ∨ l ∈ ls₀)) := by
  cases ls with
  | nil => simp [consHead] at hl; exact Or.inl ⟨rfl, hl⟩
  | cons l₀ ls₀ =>
    simp only [consHead, List.mem_cons] at hl
    exact Or.inr ⟨l₀, ls₀, rfl, hl⟩

theorem splitNl_no_newline (s : List Char) : ∀ l ∈ splitNl s, '\n' ∉ l := by
  induction s with
  | nil => intro l hl; simp [splitNl] at hl; simp [hl]
  | cons c cs ih =>
    intro l hl
    simp only [splitNl] at hl
    by_cases hc : c = '\n'
    · rw [if_pos hc] at hl
      rcases List.mem_cons.mp hl with rfl | hl
      · simp
      · exact ih l hl
    · rw [if_neg hc] at hl
      rcases mem_consHead c _ l hl with ⟨h0, rfl⟩ | ⟨l₀, ls₀, hsp, hcase⟩
      · exact absurd h0 (splitNl_ne_nil cs)
      · rcases hcase with rfl | hmem
        · intro hmem
          rcases List.mem_cons.mp hmem with h | h
          · exact hc h.symm
          · exact ih l₀ (hsp ▸ List.mem_cons_self l₀ ls₀) h
        · exact ih l (hsp ▸ List.mem_cons_of_mem l₀ hmem)

theorem splitNl_append_newline (l r : List Char) (hl : '\n' ∉ l) :
    splitNl (l ++ '\n' :: r) = l :: splitNl r := by
  induction l with
  | nil => simp [splitNl]
  | cons c cs ih =>
    have hc : c ≠ '\n' := fun h => hl (h ▸ List.mem_cons_self c cs)
    have hcs : '\n' ∉ cs := fun h => hl (List.mem_cons_of_mem c h)
    simp only [List.cons_append, splitNl, if_neg hc, List.append_eq]
    rw [ih hcs]
    simp [consHead]

theorem splitNl_of_no_newline (l : List Char) (hl : '\n' ∉ l) :
    splitNl l = [l] := by
  induction l with
  | nil => simp [splitNl]
  | cons c cs ih =>
    have hc : c ≠ '\n' := fun h => hl (h ▸ List.mem_cons_self c cs)
    have hcs : '\n' ∉ cs := fun h => hl (List.mem_cons_of_mem c h)
    simp only [splitNl, if_neg hc, ih hcs, consHead]

theorem joinNl_cons (x : List Char) (xs : List (List Char)) :
    joinNl (x :: xs) = x ++ (if xs = [] then [] else '\n' :: joinNl xs) := by
  cases xs <;> simp [joinNl]

theorem splitNl_joinNl (ls : List (List Char)) (hne : ls ≠ [])
    (hnl : ∀ l ∈ ls, '\n' ∉ l) : splitNl (joinNl ls) = ls := by
  induction ls with
  | nil => exact absurd rfl hne
  | cons x xs ih =>
    cases xs with
    | nil =>
      simp only [joinNl]
      exact splitNl_of_no_newline x (hnl x (List.mem_cons_self x []))
    | cons y ys =>
      have hx : '\n' ∉ x := hnl x (List.mem_cons_self x _)
      have hxs : ∀ l ∈ y :: ys, '\n' ∉ l := fun l hl =>
        hnl l (List.mem_cons_of_mem x hl)
      rw [joinNl_cons, if_neg (by simp), splitNl_append_newline x _ hx,
        ih (by simp) hxs]

theorem joinNl_splitNl (s : List Char) : joinNl (splitNl s) = s := by
  induction s with
  | nil => simp [splitNl, joinNl]
  | cons c cs ih =>
    simp only [splitNl]
    by_cases hc : c = '\n'
    · rw [if_pos hc]
      obtain ⟨l₀, ls₀, h⟩ : ∃ l₀ ls₀, splitNl cs = l₀ :: ls₀ := by
        cases h : splitNl cs with
        | nil => exact absurd h (splitNl_ne_nil cs)
        | cons a b => exact ⟨a, b, rfl⟩
      rw [h] at ih ⊢
      simp [joinNl, ih, hc]
    · rw [if_neg hc]
      obtain ⟨l₀, ls₀, h⟩ : ∃ l₀ ls₀, splitNl cs = l₀ :: ls₀ := by
        cases h : splitNl cs with
        | nil => exact absurd h (splitNl_ne_nil cs)
        | cons a b => exact ⟨a, b, rfl⟩
      rw [h] at ih ⊢
      cases ls₀ with
      | nil => simp only [consHead, joinNl] at ih ⊢; rw [ih]
      | cons z zs => simp only [consHead, joinNl] at ih ⊢; simp [ih]

theorem lk_append_some {xs ys : List (Nat × Nat)} {k : Nat} {v : Nat}
    (h : List.lookup k xs = some v) :
    List.lookup k (xs ++ ys) = some v := by
  induction xs with
  | nil => simp [List.lookup] at h
  | cons a xs ih =>
    obtain ⟨a1, a2⟩ := a
    rcases Bool.eq_false_or_eq_true (k == a1) with hk | hk <;>
      simp only [List.cons_append, List.lookup, hk, List.append_eq] at h ⊢ <;>
      first
        | exact h
        | exact ih h

theorem dropLit_sound (pat s r : List Char) (h : dropLit pat s = some r) :
    s = pat ++ r := by
  induction pat generalizing s with
  | nil => simp [dropLit] at h; simp [h]
  | cons c cs ih =>
    cases s with
    | nil => simp [dropLit] at h
    | cons d ds =>
      simp only [dropLit] at h
      split at h
      · rename_i hcd
        simp [hcd, ih ds h]
      · exact absurd h (by simp)

/-! Lemmas about `parse_diff_output`. -/

theorem bool_ne_true {b : Bool} (h : b = false) : ¬(b = true) := by
  rw [h]; simp

theorem parseStep_boundary (st : ParseState) (l : List Char)
    (hb : pyStartsWith "diff --git".toList l = true) :
    parseStep st l = ⟨flushFile st, lastIfMany (splitB l), [l], false, false⟩ := by
  unfold parseStep
  rw [if_pos hb]

theorem parseStep_files_current (st : ParseState) (l : List Char)
    (hb : pyStartsWith "diff --git".toList l = false) :
    (parseStep st l).files = st.files
    ∧ (parseStep st l).current_file = st.current_file := by
  unfold parseStep
  rw [if_neg (bool_ne_true hb)]
  by_cases h2 : pyStartsWith "new file".toList l = true
  · rw [if_pos h2]; exact ⟨rfl, rfl⟩
  · rw [if_neg h2]
    by_cases h3 : pyStartsWith "deleted file".toList l = true
    · rw [if_pos h3]; exact ⟨rfl, rfl⟩
    · rw [if_neg h3]
      cases hc : st.current_file with
      | none => exact ⟨rfl, hc⟩
      | some p => exact ⟨rfl, rfl⟩

theorem flushFile_length (st : ParseState) :
    (flushFile st).length
      = st.files.length + cond st.current_file.isSome 1 0 := by
  unfold flushFile
  cases st.current_file <;> simp

theorem flush_marker (st : ParseState) (h : ParseMarkerInv st) :
    ∀ fd ∈ flushFile st, fd.is_new = true → fd.is_deleted = true →
      (∃ l ∈ splitNl fd.content, pyStartsWith "new file".toList l = true) ∧
      (∃ l ∈ splitNl fd.content, pyStartsWith "deleted file".toList l = true) := by
  obtain ⟨hf, hcc, hn, hd⟩ := h
  intro fd hfd hnew hdel
  unfold flushFile at hfd
  cases hcf : st.current_file with
  | none => rw [hcf] at hfd; exact hf fd hfd hnew hdel
  | some p =>
    rw [hcf] at hfd
    rcases List.mem_append.mp hfd with hold | hnew2
    · exact hf fd hold hnew hdel
    · have hfd2 : fd
          = ⟨p, joinNl st.current_content, st.is_new, st.is_deleted⟩ := by
        simpa using hnew2
      subst hfd2
      dsimp only at hnew hdel ⊢
      obtain ⟨l₁, hl₁, hp₁⟩ := hn hnew
      obtain ⟨l₂, hl₂, hp₂⟩ := hd hdel
      have hne : st.current_content ≠ [] := by
        intro h0
        rw [h0] at hl₁
        simp at hl₁
      rw [splitNl_joinNl _ hne hcc]
      exact ⟨⟨l₁, hl₁, hp₁⟩, ⟨l₂, hl₂, hp₂⟩⟩

theorem parseStep_marker (st : ParseState) (l : List Char) (hnl : '\n' ∉ l)
    (h : ParseMarkerInv st) : ParseMarkerInv (parseStep st l) := by
  obtain ⟨hf, hcc, hn, hd⟩ := h
  by_cases hb : pyStartsWith "diff --git".toList l = true
  · rw [parseStep_boundary st l hb]
    refine ⟨flush_marker st ⟨hf, hcc, hn, hd⟩, ?_, ?_, ?_⟩
    · intro l' hl'
      simp only [List.mem_singleton] at hl'
      subst hl'
      exact hnl
    · intro hfalse; simp at hfalse
    · intro hfalse; simp at hfalse
  · have hb' : pyStartsWith "diff --git".toList l = false := by simpa using hb
    by_cases h2 : pyStartsWith "new file".toList l = true
    · have hstep : parseStep st l
          = { st with is_new := true,
                      current_content := st.current_content ++ [l] } := by
        unfold parseStep
        rw [if_neg (bool_ne_true hb'), if_pos h2]
      rw [hstep]
      refine ⟨hf, ?_, ?_, ?_⟩
      · intro l' hl'
        rcases List.mem_append.mp hl' with hx | hx
        · exact hcc l' hx
        · simp only [List.mem_singleton] at hx
          subst hx
          exact hnl
      · intro _
        exact ⟨l, List.mem_append_right _ (by simp), h2⟩
      · intro hdel
        obtain ⟨l₂, hl₂, hp₂⟩ := hd hdel
        exact ⟨l₂, List.mem_append_left _ hl₂, hp₂⟩
    · have h2' : pyStartsWith "new file".toList l = false := by simpa using h2
      by_cases h3 : pyStartsWith "deleted file".toList l = true
      · have hstep : parseStep st l
            = { st with is_deleted := true,
                        current_content := st.current_content ++ [l] } := by
          unfold parseStep
          rw [if_neg (bool_ne_true hb'), if_neg (bool_ne_true h2'), if_pos h3]
        rw [hstep]
        refine ⟨hf, ?_, ?_, ?_⟩
        · intro l' hl'
          rcases List.mem_append.mp hl' with hx | hx
          · exact hcc l' hx
          · simp only [List.mem_singleton] at hx
            subst hx
            exact hnl
        · intro hnew
          obtain ⟨l₁, hl₁, hp₁⟩ := hn hnew
          exact ⟨l₁, List.mem_append_left _ hl₁, hp₁⟩
        · intro _
          exact ⟨l, List.mem_append_right _ (by simp), h3⟩
      · have h3' : pyStartsWith "deleted file".toList l = false := by
          simpa using h3
        cases hc : st.current_file with
        | some p =>
          have hstep : parseStep st l
              = { st with current_content := st.current_content ++ [l] } := by
            unfold parseStep
            rw [if_neg (bool_ne_true hb'), if_neg (bool_ne_true h2'),
              if_neg (bool_ne_true h3'), hc]
          rw [hstep]
          refine ⟨hf, ?_, ?_, ?_⟩
          · intro l' hl'
            rcases List.mem_append.mp hl' with hx | hx
            · exact hcc l' hx
            · simp only [List.mem_singleton] at hx
              subst hx
              exact hnl
          · intro hnew
            obtain ⟨l₁, hl₁, hp₁⟩ := hn hnew
            exact ⟨l₁, List.mem_append_left _ hl₁, hp₁⟩
          · intro hdel
            obtain ⟨l₂, hl₂, hp₂⟩ := hd hdel
            exact ⟨l₂, List.mem_append_left _ hl₂, hp₂⟩
        | none =>
          have hstep : parseStep st l = st := by
            unfold parseStep
            rw [if_neg (bool_ne_true hb'), if_neg (bool_ne_true h2'),
              if_neg (bool_ne_true h3'), hc]
          rw [hstep]
          exact ⟨hf, hcc, hn, hd⟩

theorem parseFold_marker : ∀ (lines : List (List Char)) (st : ParseState),
    (∀ l ∈ lines, '\n' ∉ l) → ParseMarkerInv st →
    ParseMarkerInv (lines.foldl parseStep st)
  | [], _, _, h => h
  | l :: ls, st, hlines, h =>
    parseFold_marker ls (parseStep st l)
      (fun x hx => hlines x (List.mem_cons_of_mem l hx))
      (parseStep_marker st l (hlines l (List.mem_cons_self l ls)) h)

theorem parseStep_count (st : ParseState) (l : List Char) :
    (parseStep st l).files.length + cond (parseStep st l).current_file.isSome 1 0
      = st.files.length + cond st.current_file.isSome 1 0
        + cond (goodBoundary l) 1 0 := by
  by_cases hb : pyStartsWith "diff --git".toList l = true
  · rw [parseStep_boundary st l hb]
    dsimp only
    rw [flushFile_length]
    unfold goodBoundary
    rw [hb, Bool.true_and]
  · have hb' : pyStartsWith "diff --git".toList l = false := by simpa using hb
    obtain ⟨he1, he2⟩ := parseStep_files_current st l hb'
    rw [he1, he2]
    unfold goodBoundary
    rw [hb', Bool.false_and]
    simp

theorem parseFold_count : ∀ (lines : List (List Char)) (st : ParseState),
    (lines.foldl parseStep st).files.length
      + cond (lines.foldl parseStep st).current_file.isSome 1 0
    = st.files.length + cond st.current_file.isSome 1 0
      + lines.countP goodBoundary := by
  intro lines
  induction lines with
  | nil => intro st; simp
  | cons l ls ih =>
    intro st
    have hstep := parseStep_count st l
    have hfold := ih (parseStep st l)
    simp only [List.foldl_cons] at *
    rw [hfold, List.countP_cons]
    by_cases hg : goodBoundary l = true <;> simp [hg] at hstep ⊢ <;> omega

/-- Claim C2 (counterexample): on an input whose single block carries both a
`new file` and a `deleted file` marker line, `parse_diff_output` produces a
`FileDiff` with `is_new` and `is_deleted` simultaneously true, so the
claimed parser-output invariant fails. -/
theorem c2_counterexample :
    (parse_diff_output s2input).map (fun fd => (fd.is_new, fd.is_deleted))
      = [(true, true)] := by
  rfl

/-- Claim C2 (amended): a `FileDiff` produced by `parse_diff_output` has
`is_new` and `is_deleted` simultaneously true only when its block content
contains both a line starting with `new file` and a line starting with
`deleted file`; for any input without such a block the invariant
`not (is_new and is_deleted)` holds. -/
theorem c2_flags_need_both_markers :
    ∀ (s : List Char) (fd : FileDiff), fd ∈ parse_diff_output s →
      fd.is_new = true → fd.is_deleted = true →
      (∃ l ∈ splitNl fd.content, pyStartsWith "new file".toList l = true) ∧
      (∃ l ∈ splitNl fd.content, pyStartsWith "deleted file".toList l = true) := by
  intro s fd hfd hnew hdel
  unfold parse_diff_output at hfd
  by_cases hb : isBlank s = true
  · rw [if_pos hb] at hfd
    simp at hfd
  · rw [if_neg hb] at hfd
    have h := parseFold_marker (splitNl s) ⟨[], none, [], false, false⟩
      (splitNl_no_newline s)
      ⟨by intro fd h0; simp at h0, by intro l h0; simp at h0,
       by intro h0; simp at h0, by intro h0; simp at h0⟩
    exact flush_marker _ h fd hfd hnew hdel

/-- Claim C2 (witness): the amended statement applied at the malformed
two-marker block, exhibiting the marker lines inside the produced block. -/
theorem c2_witness :
    (∃ l ∈ splitNl fd2.content, pyStartsWith "new file".toList l = true) ∧
    (∃ l ∈ splitNl fd2.content, pyStartsWith "deleted file".toList l = true) :=
  c2_flags_need_both_markers s2input fd2 (by decide) rfl rfl

/-- Claim C6 (counterexample): the input consisting of the single line
`diff --git` has one line beginning with the boundary marker but no path can
be extracted from it, and the parser returns no entries, so the claimed
count equality fails. -/
theorem c6_counterexample :
    parse_diff_output "diff --git".toList = []
    ∧ (splitNl "diff --git".toList).countP
        (fun l => pyStartsWith "diff --git".toList l) = 1 := by
  exact ⟨rfl, rfl⟩

/-- Claim C6 (amended): for every input that is not empty and not
whitespace-only, the number of parsed `FileDiff` entries equals the number
of lines beginning with `diff --git` from which a path can be extracted
(the line contains `" b/"`); boundary lines without an extractable path
contribute no entry. -/
theorem c6_entry_count (s : List Char) (h : isBlank s = false) :
    (parse_diff_output s).length = (splitNl s).countP goodBoundary := by
  unfold parse_diff_output
  rw [if_neg (by simp [h])]
  rw [flushFile_length]
  have hc := parseFold_count (splitNl s) ⟨[], none, [], false, false⟩
  simpa using hc

/-- Claim C6 (witness): the amended count applied to a concrete two-file
diff. -/
theorem c6_witness :
    (parse_diff_output
        "diff --git a/a b/a\n+x\ndiff --git a/b b/b\n+y".toList).length
      = 2 := by
  have h := c6_entry_count
    "diff --git a/a b/a\n+x\ndiff --git a/b b/b\n+y".toList (by decide)
  rw [h]
  decide

/-- Claim C1 (code evaluated at the failing input): building the synthetic
fully-added diff from the text `hello` and extracting does not reproduce
`hello`: the `diff --git` and `new file mode` header lines are retained as
content (they match no marker the extractor drops), and the line map is not
the identity. -/
theorem c1_roundtrip_fails :
    extract_content_with_line_map (format_as_diff "f".toList "hello".toList)
      = ("diff --git a/f b/f\nnew file mode 100644\nhello".toList,
         [(1, 1), (2, 2), (3, 1)])
    ∧ (extract_content_with_line_map
        (format_as_diff "f".toList "hello".toList)).1 ≠ "hello".toList := by
  exact ⟨rfl, by decide⟩

/-! Lemmas about `_extract_content_with_line_map`. -/

theorem lk_append (xs ys : List (Nat × Nat)) (k : Nat) :
    List.lookup k (xs ++ ys)
      = match List.lookup k xs with
        | some v => some v
        | none => List.lookup k ys := by
  induction xs with
  | nil => simp [List.lookup]
  | cons a xs ih =>
    obtain ⟨a1, a2⟩ := a
    rcases Bool.eq_false_or_eq_true (k == a1) with hk | hk <;>
      simp only [List.cons_append, List.lookup, hk, List.append_eq] <;>
      simp [ih]

theorem pyStartsWith_ne_nil (c : Char) (cs l : List Char)
    (h : pyStartsWith (c :: cs) l = true) : l ≠ [] := by
  intro h0
  rw [h0] at h
  simp [pyStartsWith] at h

theorem retainLine_some_length (l y : List Char) (h : retainLine l = some y) :
    y.length ≤ l.length := by
  unfold retainLine at h
  split at h
  · exact absurd h (by simp)
  · split at h
    · cases h
      simp [List.length_tail]
    · cases h
      exact Nat.le_refl _

theorem extractStep_drop (st : ExtractState) (l : List Char)
    (h1 : pyStartsWith "---".toList l = false)
    (h2 : pyStartsWith "+++".toList l = false)
    (h3 : parseHunkHeader l = none)
    (h4 : pyStartsWith "-".toList l = true) :
    extractStep st l = st := by
  unfold extractStep
  rw [h1, h2]
  rw [if_neg (by decide)]
  rw [h3]
  dsimp only
  rw [if_pos h4]

theorem extractStep_keep (st : ExtractState) (l : List Char)
    (h1 : pyStartsWith "---".toList l = false)
    (h2 : pyStartsWith "+++".toList l = false)
    (h3 : parseHunkHeader l = none)
    (h4 : pyStartsWith "-".toList l = false) :
    extractStep st l = { st with
      lines := st.lines ++ [if pyStartsWith "+".toList l then l.tail else l]
      line_map := st.line_map ++ [(st.lines.length + 1, st.current_file_line)]
      current_file_line := st.current_file_line + 1 } := by
  unfold extractStep
  rw [h1, h2]
  rw [if_neg (by decide)]
  rw [h3]
  dsimp only
  rw [if_neg (bool_ne_true h4)]
  by_cases h5 : pyStartsWith "+".toList l = true
  · rw [if_pos h5, if_pos h5]
  · rw [if_neg h5, if_neg h5]

theorem retainLine_none (l : List Char)
    (h4 : pyStartsWith "-".toList l = true) : retainLine l = none := by
  unfold retainLine
  rw [if_pos h4]

theorem retainLine_some (l : List Char)
    (h4 : pyStartsWith "-".toList l = false) :
    retainLine l = some (if pyStartsWith "+".toList l then l.tail else l) := by
  unfold retainLine
  rw [if_neg (bool_ne_true h4)]
  by_cases h5 : pyStartsWith "+".toList l = true
  · rw [if_pos h5, if_pos h5]
  · rw [if_neg h5, if_neg h5]

theorem extractFold_clean : ∀ (ls : List (List Char)) (st : ExtractState),
    (∀ l ∈ ls, pyStartsWith "---".toList l = false
      ∧ pyStartsWith "+++".toList l = false ∧ parseHunkHeader l = none) →
    ((ls.foldl extractStep st).lines = st.lines ++ ls.filterMap retainLine)
    ∧ ((ls.foldl extractStep st).is_diff_format = st.is_diff_format) := by
  intro ls
  induction ls with
  | nil => intro st _; simp
  | cons l ls ih =>
    intro st h
    obtain ⟨h1, h2, h3⟩ := h l (List.mem_cons_self l ls)
    have hrest := fun x hx => h x (List.mem_cons_of_mem l hx)
    by_cases h4 : pyStartsWith "-".toList l = true
    · rw [List.foldl_cons, extractStep_drop st l h1 h2 h3 h4,
        List.filterMap_cons_none (retainLine_none l h4)]
      exact ih st hrest
    · have h4' : pyStartsWith "-".toList l = false := by simpa using h4
      rw [List.foldl_cons, extractStep_keep st l h1 h2 h3 h4',
        List.filterMap_cons_some (retainLine_some l h4')]
      obtain ⟨ha, hb⟩ := ih _ hrest
      refine ⟨?_, by rw [hb]⟩
      rw [ha]
      simp

theorem filterMap_retain_id : ∀ (ls : List (List Char)),
    (∀ l ∈ ls, pyStartsWith "+".toList l = false
      ∧ pyStartsWith "-".toList l = false) →
    ls.filterMap retainLine = ls := by
  intro ls
  induction ls with
  | nil => intro _; rfl
  | cons l ls ih =>
    intro h
    obtain ⟨h5, h4⟩ := h l (List.mem_cons_self l ls)
    have hsome : retainLine l = some l := by
      rw [retainLine_some l h4, if_neg (bool_ne_true h5)]
    rw [List.filterMap_cons_some hsome,
      ih (fun x hx => h x (List.mem_cons_of_mem l hx))]

theorem joinNl_filterMap_le : ∀ (ls : List (List Char)),
    (joinNl (ls.filterMap retainLine)).length ≤ (joinNl ls).length := by
  intro ls
  induction ls with
  | nil => simp
  | cons l ls ih =>
    rw [joinNl_cons]
    cases hr : retainLine l with
    | none =>
      rw [List.filterMap_cons_none hr]
      by_cases hls : ls = []
      · subst hls; simp [joinNl]
      · rw [if_neg hls]
        simp only [List.length_append, List.length_cons]
        omega
    | some y =>
      rw [List.filterMap_cons_some hr, joinNl_cons]
      have hy := retainLine_some_length l y hr
      by_cases hf : ls.filterMap retainLine = []
      · rw [hf] at ih ⊢
        by_cases hls : ls = []
        · subst hls; simp [joinNl]; omega
        · rw [if_pos rfl, if_neg hls]
          simp only [List.length_append, List.length_cons, joinNl,
            List.length_nil] at ih ⊢
          omega
      · have hls : ls ≠ [] := by
          intro h0; rw [h0] at hf; simp at hf
        rw [if_neg hf, if_neg hls]
        simp only [List.length_append, List.length_cons]
        omega

theorem joinNl_filterMap_lt : ∀ (ls : List (List Char)),
    (∃ l ∈ ls, pyStartsWith "+".toList l = true
      ∨ pyStartsWith "-".toList l = true) →
    (joinNl (ls.filterMap retainLine)).length < (joinNl ls).length := by
  intro ls
  induction ls with
  | nil => intro h; simp at h
  | cons l ls ih =>
    intro h
    rcases h with ⟨x, hx, hdirty⟩
    rcases List.mem_cons.mp hx with rfl | hx
    · -- the head is dirty
      have hne : x ≠ [] := by
        rcases hdirty with h5 | h4
        · exact pyStartsWith_ne_nil '+' [] x (by simpa using h5)
        · exact pyStartsWith_ne_nil '-' [] x (by simpa using h4)
      have hxlen : 1 ≤ x.length := by
        cases x with
        | nil => exact absurd rfl hne
        | cons a b => simp
      rw [joinNl_cons]
      by_cases h4 : pyStartsWith "-".toList x = true
      · rw [List.filterMap_cons_none (retainLine_none x h4)]
        have hle := joinNl_filterMap_le ls
        by_cases hls : ls = []
        · subst hls; simp [joinNl]; omega
        · rw [if_neg hls]
          simp only [List.length_append, List.length_cons]
          omega
      · have h4' : pyStartsWith "-".toList x = false := by simpa using h4
        have h5 : pyStartsWith "+".toList x = true := by
          rcases hdirty with h5 | hbad
          · exact h5
          · exact absurd hbad h4
        have hsome : retainLine x = some x.tail := by
          rw [retainLine_some x h4', if_pos h5]
        have htl : x.tail.length < x.length := by
          cases x with
          | nil => exact absurd rfl hne
          | cons a b => simp
        rw [List.filterMap_cons_some hsome, joinNl_cons]
        have hle := joinNl_filterMap_le ls
        by_cases hf : ls.filterMap retainLine = []
        · rw [hf] at hle ⊢
          by_cases hls : ls = []
          · subst hls; simp [joinNl]; omega
          · rw [if_pos rfl, if_neg hls]
            simp only [List.length_append, List.length_cons, joinNl,
              List.length_nil] at hle ⊢
            omega
        · have hls : ls ≠ [] := by
            intro h0; rw [h0] at hf; simp at hf
          rw [if_neg hf, if_neg hls]
          simp only [List.length_append, List.length_cons]
          omega
    · -- dirty line in the tail
      have hlt := ih ⟨x, hx, hdirty⟩
      rw [joinNl_cons]
      have hls : ls ≠ [] := by
        intro h0; rw [h0] at hx; simp at hx
      rw [if_neg hls]
      cases hr : retainLine l with
      | none =>
        rw [List.filterMap_cons_none hr]
        calc (joinNl (ls.filterMap retainLine)).length
            < (joinNl ls).length := hlt
          _ ≤ (l ++ '\n' :: joinNl ls).length := by
              simp only [List.length_append, List.length_cons]; omega
      | some y =>
        rw [List.filterMap_cons_some hr, joinNl_cons]
        have hy := retainLine_some_length l y hr
        by_cases hf : ls.filterMap retainLine = []
        · rw [if_pos hf]
          rw [hf] at hlt
          simp only [joinNl, List.length_nil] at hlt
          simp only [List.length_append, List.length_cons, List.length_nil]
          omega
        · rw [if_neg hf]
          simp only [List.length_append, List.length_cons]
          omega

/-- Claim C10 (confirmed): on input with no `---`/`+++` file-header line and
no parsable hunk-header line, the extractor still drops every `-` line and
strips the leading `+` from every `+` line, the line map is forced to the
identity on the retained positions, and the extracted content equals the
input exactly iff no input line begins with `+` or `-`. -/
theorem c10_raw_input_behavior (s : List Char)
    (h : ∀ l ∈ splitNl s, pyStartsWith "---".toList l = false
      ∧ pyStartsWith "+++".toList l = false ∧ parseHunkHeader l = none) :
    (extract_content_with_line_map s).1
      = joinNl ((splitNl s).filterMap retainLine)
    ∧ (extract_content_with_line_map s).2
      = (List.range' 1 ((splitNl s).filterMap retainLine).length).map
          (fun i => (i, i))
    ∧ ((extract_content_with_line_map s).1 = s ↔
        ∀ l ∈ splitNl s, pyStartsWith "+".toList l = false
          ∧ pyStartsWith "-".toList l = false) := by
  obtain ⟨hlines, hflag⟩ :=
    extractFold_clean (splitNl s) ⟨[], [], 1, false⟩ h
  have h1 : (extract_content_with_line_map s).1
      = joinNl ((splitNl s).filterMap retainLine) := by
    unfold extract_content_with_line_map
    dsimp only
    rw [hlines]
    simp
  have h2 : (extract_content_with_line_map s).2
      = (List.range' 1 ((splitNl s).filterMap retainLine).length).map
          (fun i => (i, i)) := by
    unfold extract_content_with_line_map
    dsimp only
    rw [hflag]
    dsimp only
    rw [hlines]
    simp
  refine ⟨h1, h2, Iff.intro ?_ ?_⟩
  · -- content = input implies no line is marked
    intro heq
    by_contra hdirty
    push_neg at hdirty
    obtain ⟨x, hx, hnot⟩ := hdirty
    have hxd : pyStartsWith "+".toList x = true
        ∨ pyStartsWith "-".toList x = true := by
      by_cases hp : pyStartsWith "+".toList x = true
      · exact Or.inl hp
      · right
        by_cases hm : pyStartsWith "-".toList x = true
        · exact hm
        · exact absurd (by simpa using hm) (hnot (by simpa using hp))
    have hlt := joinNl_filterMap_lt (splitNl s) ⟨x, hx, hxd⟩
    rw [joinNl_splitNl s, ← h1, heq] at hlt
    exact lt_irrefl _ hlt
  · intro hclean
    rw [h1, filterMap_retain_id (splitNl s) hclean, joinNl_splitNl s]

/-! Lemmas for the hunk-header start-line property. -/

theorem dropped_iff (l : List Char) :
    droppedLine l = true ↔
      pyStartsWith "---".toList l = true ∨ pyStartsWith "+++".toList l = true
      ∨ (parseHunkHeader l).isSome = true
      ∨ pyStartsWith "-".toList l = true := by
  simp only [droppedLine, Bool.or_eq_true]
  tauto

theorem extractStep_of_dropped (st : ExtractState) (l : List Char)
    (h : droppedLine l = true) :
    (extractStep st l).lines = st.lines
    ∧ (extractStep st l).line_map = st.line_map := by
  by_cases h1 : (pyStartsWith "---".toList l
      || pyStartsWith "+++".toList l) = true
  · unfold extractStep
    rw [if_pos h1]
    exact ⟨rfl, rfl⟩
  · have h1' : (pyStartsWith "---".toList l
        || pyStartsWith "+++".toList l) = false := by simpa using h1
    unfold extractStep
    rw [if_neg (bool_ne_true h1')]
    cases hh : parseHunkHeader l with
    | some n => exact ⟨rfl, rfl⟩
    | none =>
      have h4 : pyStartsWith "-".toList l = true := by
        rcases (dropped_iff l).mp h with ha | hb | hc | hd
        · rw [ha] at h1'; simp at h1'
        · rw [hb] at h1'; simp at h1'
        · rw [hh] at hc; simp at hc
        · exact hd
      dsimp only
      rw [if_pos h4]
      exact ⟨rfl, rfl⟩

theorem extractStep_of_dropped_nohunk (st : ExtractState) (l : List Char)
    (h : droppedLine l = true) (hh : parseHunkHeader l = none) :
    (extractStep st l).current_file_line = st.current_file_line := by
  by_cases h1 : (pyStartsWith "---".toList l
      || pyStartsWith "+++".toList l) = true
  · unfold extractStep
    rw [if_pos h1]
  · have h1' : (pyStartsWith "---".toList l
        || pyStartsWith "+++".toList l) = false := by simpa using h1
    have h4 : pyStartsWith "-".toList l = true := by
      rcases (dropped_iff l).mp h with ha | hb | hc | hd
      · rw [ha] at h1'; simp at h1'
      · rw [hb] at h1'; simp at h1'
      · rw [hh] at hc; simp at hc
      · exact hd
    unfold extractStep
    rw [if_neg (bool_ne_true h1'), hh]
    dsimp only
    rw [if_pos h4]

theorem extractStep_flag_mono (st : ExtractState) (l : List Char)
    (h : st.is_diff_format = true) :
    (extractStep st l).is_diff_format = true := by
  unfold extractStep
  by_cases h1 : (pyStartsWith "---".toList l
      || pyStartsWith "+++".toList l) = true
  · rw [if_pos h1]
  · rw [if_neg h1]
    cases hh : parseHunkHeader l with
    | some n => rfl
    | none =>
      dsimp only
      by_cases h4 : pyStartsWith "-".toList l = true
      · rw [if_pos h4]; exact h
      · rw [if_neg h4]
        by_cases h5 : pyStartsWith "+".toList l = true
        · rw [if_pos h5]; exact h
        · rw [if_neg h5]; exact h

theorem extractStep_hunk (st : ExtractState) (l : List Char) (L : Nat)
    (h : parseHunkHeader l = some L) :
    extractStep st l
      = { st with is_diff_format := true, current_file_line := L } := by
  obtain ⟨r, hr⟩ : ∃ r, dropLit "@@ -".toList l = some r := by
    unfold parseHunkHeader at h
    cases hd : dropLit "@@ -".toList l with
    | none => rw [hd] at h; simp at h
    | some r => exact ⟨r, rfl⟩
  have hl : l = '@' :: '@' :: ' ' :: '-' :: r := by
    have := dropLit_sound _ _ _ hr
    simpa using this
  have h1 : (pyStartsWith "---".toList l
      || pyStartsWith "+++".toList l) = false := by
    subst hl
    simp [pyStartsWith]
  unfold extractStep
  rw [if_neg (bool_ne_true h1), h]

theorem extractFold_droppedAll : ∀ (ls : List (List Char)) (st : ExtractState),
    (∀ l ∈ ls, droppedLine l = true) →
    ((ls.foldl extractStep st).lines = st.lines)
    ∧ ((ls.foldl extractStep st).line_map = st.line_map) := by
  intro ls
  induction ls with
  | nil => intro st _; exact ⟨rfl, rfl⟩
  | cons l ls ih =>
    intro st h
    obtain ⟨ha, hb⟩ :=
      extractStep_of_dropped st l (h l (List.mem_cons_self l ls))
    obtain ⟨hc, hd⟩ := ih (extractStep st l)
      (fun x hx => h x (List.mem_cons_of_mem l hx))
    exact ⟨by rw [List.foldl_cons, hc, ha], by rw [List.foldl_cons, hd, hb]⟩

theorem extractFold_droppedNoHunk :
    ∀ (ls : List (List Char)) (st : ExtractState),
    (∀ l ∈ ls, droppedLine l = true ∧ parseHunkHeader l = none) →
    ((ls.foldl extractStep st).lines = st.lines)
    ∧ ((ls.foldl extractStep st).line_map = st.line_map)
    ∧ ((ls.foldl extractStep st).current_file_line = st.current_file_line) := by
  intro ls
  induction ls with
  | nil => intro st _; exact ⟨rfl, rfl, rfl⟩
  | cons l ls ih =>
    intro st h
    obtain ⟨hd1, hd2⟩ := h l (List.mem_cons_self l ls)
    obtain ⟨ha, hb⟩ := extractStep_of_dropped st l hd1
    have hcur := extractStep_of_dropped_nohunk st l hd1 hd2
    obtain ⟨hc, hd, he⟩ := ih (extractStep st l)
      (fun x hx => h x (List.mem_cons_of_mem l hx))
    exact ⟨by rw [List.foldl_cons, hc, ha], by rw [List.foldl_cons, hd, hb],
      by rw [List.foldl_cons, he, hcur]⟩

theorem extractStep_retained (st : ExtractState) (l : List Char)
    (h : droppedLine l = false) :
    extractStep st l = { st with
      lines := st.lines ++ [if pyStartsWith "+".toList l then l.tail else l]
      line_map := st.line_map ++ [(st.lines.length + 1, st.current_file_line)]
      current_file_line := st.current_file_line + 1 } := by
  have hcomp : pyStartsWith "---".toList l = false
      ∧ pyStartsWith "+++".toList l = false
      ∧ (parseHunkHeader l).isSome = false
      ∧ pyStartsWith "-".toList l = false := by
    unfold droppedLine at h
    simp only [Bool.or_eq_false_iff] at h
    exact ⟨h.1.1.1, h.1.1.2, h.1.2, h.2⟩
  obtain ⟨h1, h2, h3, h4⟩ := hcomp
  have h3' : parseHunkHeader l = none := by
    cases hx : parseHunkHeader l with
    | none => rfl
    | some n => rw [hx] at h3; simp at h3
  exact extractStep_keep st l h1 h2 h3' h4

theorem extractFold_after : ∀ (ls : List (List Char)) (st : ExtractState),
    st.lines ≠ [] →
    (∀ l ∈ ls, '\n' ∉ l) → (∀ x ∈ st.lines, '\n' ∉ x) →
    ((ls.foldl extractStep st).lines.head? = st.lines.head?)
    ∧ (List.lookup 1 (ls.foldl extractStep st).line_map
        = List.lookup 1 st.line_map)
    ∧ ((ls.foldl extractStep st).lines ≠ [])
    ∧ (∀ x ∈ (ls.foldl extractStep st).lines, '\n' ∉ x) := by
  intro ls
  induction ls with
  | nil => intro st hne _ hnl; exact ⟨rfl, rfl, hne, hnl⟩
  | cons l ls ih =>
    intro st hne hlnl hnl
    have hlnl' := fun x hx => hlnl x (List.mem_cons_of_mem l hx)
    have hlhd := hlnl l (List.mem_cons_self l ls)
    by_cases hd : droppedLine l = true
    · obtain ⟨ha, hb⟩ := extractStep_of_dropped st l hd
      obtain ⟨hc, hd2, he, hf⟩ := ih (extractStep st l)
        (by rw [ha]; exact hne) hlnl' (by rw [ha]; exact hnl)
      rw [List.foldl_cons] at *
      exact ⟨by rw [hc, ha], by rw [hd2, hb], he, hf⟩
    · have hd' : droppedLine l = false := by simpa using hd
      have hstep := extractStep_retained st l hd'
      have hy : '\n' ∉ (if pyStartsWith "+".toList l then l.tail else l) := by
        by_cases h5 : pyStartsWith "+".toList l = true
        · rw [if_pos h5]
          intro hmem
          exact hlhd (List.tail_subset l hmem)
        · rw [if_neg h5]
          exact hlhd
      have hlines' : (extractStep st l).lines ≠ [] := by
        rw [hstep]; simp
      have hnl2 : ∀ x ∈ (extractStep st l).lines, '\n' ∉ x := by
        rw [hstep]
        intro x hx
        rcases List.mem_append.mp hx with hx | hx
        · exact hnl x hx
        · simp only [List.mem_singleton] at hx
          subst hx
          exact hy
      obtain ⟨hc, hd2, he, hf⟩ := ih (extractStep st l) hlines' hlnl' hnl2
      rw [List.foldl_cons] at *
      refine ⟨?_, ?_, he, hf⟩
      · rw [hc, hstep]
        dsimp only
        cases hls : st.lines with
        | nil => exact absurd hls hne
        | cons a b => simp
      · rw [hd2, hstep]
        dsimp only
        rw [lk_append]
        cases hlk : List.lookup 1 st.line_map with
        | some v => rfl
        | none =>
          have hlen : st.lines.length ≠ 0 := fun h0 =>
            hne (List.length_eq_zero.mp h0)
          have hbeq1 : ((st.lines.length + 1 : Nat) == 1) = false := by
            rw [beq_eq_false_iff_ne]
            omega
          have hbeq2 : ((1 : Nat) == st.lines.length + 1) = false := by
            rw [beq_eq_false_iff_ne]
            omega
          have hbeq3 : ((st.lines.length : Nat) == 0) = false := by
            rw [beq_eq_false_iff_ne]
            exact hlen
          have hbeq4 : ((0 : Nat) == st.lines.length) = false := by
            rw [beq_eq_false_iff_ne]
            exact fun h0 => hlen h0.symm
          simp [List.lookup, hbeq1, hbeq2, hbeq3, hbeq4]

/-- Claim C7 (counterexample): a block whose line `x` precedes the hunk
header `@@ -1,1 +5,1 @@` retains `x` as the first extracted line, mapped to
original line 1, not to the declared start 5. -/
theorem c7_counterexample :
    parseHunkHeader "@@ -1,1 +5,1 @@".toList = some 5
    ∧ (extract_content_with_line_map "x\n@@ -1,1 +5,1 @@\n+y".toList).1
        = "x\ny".toList
    ∧ List.lookup 1
        (extract_content_with_line_map "x\n@@ -1,1 +5,1 @@\n+y".toList).2
        = some 1
    ∧ List.lookup 1
        (extract_content_with_line_map "x\n@@ -1,1 +5,1 @@\n+y".toList).2
        ≠ some 5 := by
  refine ⟨rfl, rfl, rfl, by decide⟩

theorem extractFold_flagAll : ∀ (ls : List (List Char)) (st : ExtractState),
    st.is_diff_format = true →
    (ls.foldl extractStep st).is_diff_format = true
  | [], _, h => h
  | l :: ls, st, h =>
    extractFold_flagAll ls (extractStep st l) (extractStep_flag_mono st l h)

theorem extractFold_decomposition (pre mid post : List (List Char))
    (hunk r : List Char) (L : Nat)
    (hpre : ∀ l ∈ pre, droppedLine l = true)
    (hhunk : parseHunkHeader hunk = some L)
    (hmid : ∀ l ∈ mid, droppedLine l = true ∧ parseHunkHeader l = none)
    (hr : droppedLine r = false)
    (hrnl : '\n' ∉ r) (hpostnl : ∀ l ∈ post, '\n' ∉ l) :
    List.lookup 1 ((pre ++ hunk :: (mid ++ r :: post)).foldl extractStep
        ⟨[], [], 1, false⟩).line_map = some L
    ∧ ((pre ++ hunk :: (mid ++ r :: post)).foldl extractStep
        ⟨[], [], 1, false⟩).lines.head?
        = some (if pyStartsWith "+".toList r then r.tail else r)
    ∧ ((pre ++ hunk :: (mid ++ r :: post)).foldl extractStep
        ⟨[], [], 1, false⟩).is_diff_format = true
    ∧ ((pre ++ hunk :: (mid ++ r :: post)).foldl extractStep
        ⟨[], [], 1, false⟩).lines ≠ []
    ∧ (∀ x ∈ ((pre ++ hunk :: (mid ++ r :: post)).foldl extractStep
        ⟨[], [], 1, false⟩).lines, '\n' ∉ x) := by
  have hsplit4 : (pre ++ hunk :: (mid ++ r :: post)).foldl extractStep
        (⟨[], [], 1, false⟩ : ExtractState)
      = post.foldl extractStep
          (extractStep
            (mid.foldl extractStep
              (extractStep (pre.foldl extractStep ⟨[], [], 1, false⟩) hunk))
            r) := by
    rw [List.foldl_append, List.foldl_cons, List.foldl_append, List.foldl_cons]
  rw [hsplit4]
  obtain ⟨h1l, h1m⟩ := extractFold_droppedAll pre ⟨[], [], 1, false⟩ hpre
  have h2 := extractStep_hunk (pre.foldl extractStep ⟨[], [], 1, false⟩)
    hunk L hhunk
  obtain ⟨h3l, h3m, h3c⟩ := extractFold_droppedNoHunk mid
    (extractStep (pre.foldl extractStep ⟨[], [], 1, false⟩) hunk) hmid
  have h3l' : (mid.foldl extractStep
      (extractStep (pre.foldl extractStep ⟨[], [], 1, false⟩) hunk)).lines
      = [] := by
    rw [h3l, h2]; exact h1l
  have h3m' : (mid.foldl extractStep
      (extractStep (pre.foldl extractStep ⟨[], [], 1, false⟩) hunk)).line_map
      = [] := by
    rw [h3m, h2]; exact h1m
  have h3c' : (mid.foldl extractStep
      (extractStep (pre.foldl extractStep ⟨[], [], 1, false⟩)
        hunk)).current_file_line = L := by
    rw [h3c, h2]
  have h2f : (extractStep (pre.foldl extractStep ⟨[], [], 1, false⟩)
      hunk).is_diff_format = true := by
    rw [h2]
  have h3f := extractFold_flagAll mid _ h2f
  have h4 := extractStep_retained (mid.foldl extractStep
    (extractStep (pre.foldl extractStep ⟨[], [], 1, false⟩) hunk)) r hr
  have h4l : (extractStep (mid.foldl extractStep
      (extractStep (pre.foldl extractStep ⟨[], [], 1, false⟩) hunk)) r).lines
      = [if pyStartsWith "+".toList r then r.tail else r] := by
    rw [h4]
    dsimp only
    rw [h3l']
    simp
  have h4m : (extractStep (mid.foldl extractStep
      (extractStep (pre.foldl extractStep ⟨[], [], 1, false⟩) hunk))
      r).line_map = [(1, L)] := by
    rw [h4]
    dsimp only
    rw [h3m', h3l', h3c']
    simp
  have h4f : (extractStep (mid.foldl extractStep
      (extractStep (pre.foldl extractStep ⟨[], [], 1, false⟩) hunk))
      r).is_diff_format = true := by
    rw [h4]
    dsimp only
    exact h3f
  have h4ne : (extractStep (mid.foldl extractStep
      (extractStep (pre.foldl extractStep ⟨[], [], 1, false⟩) hunk)) r).lines
      ≠ [] := by
    rw [h4l]; simp
  have h4nl : ∀ x ∈ (extractStep (mid.foldl extractStep
      (extractStep (pre.foldl extractStep ⟨[], [], 1, false⟩) hunk)) r).lines,
      '\n' ∉ x := by
    rw [h4l]
    intro x hx
    simp only [List.mem_singleton] at hx
    subst hx
    by_cases h5 : pyStartsWith "+".toList r = true
    · rw [if_pos h5]
      intro hmem
      exact hrnl (List.tail_subset r hmem)
    · rw [if_neg h5]
      exact hrnl
  obtain ⟨hfh, hfm, hfne, hfnl⟩ := extractFold_after post _ h4ne hpostnl h4nl
  refine ⟨?_, ?_, extractFold_flagAll post _ h4f, hfne, hfnl⟩
  · rw [hfm, h4m]
    simp [List.lookup]
  · rw [hfh, h4l]
    rfl

/-- Claim C7 (amended): if every line before a hunk header declaring target
start `L` is dropped (file-header, hunk, or removal lines), and the first
retained line follows that header before any further hunk header, then that
first retained line of the extracted content is mapped to original line
`L`. -/
theorem c7_first_retained_maps_to_start (s : List Char)
    (pre mid post : List (List Char)) (hunk r : List Char) (L : Nat)
    (hsplit : splitNl s = pre ++ hunk :: (mid ++ r :: post))
    (hpre : ∀ l ∈ pre, droppedLine l = true)
    (hhunk : parseHunkHeader hunk = some L)
    (hmid : ∀ l ∈ mid, droppedLine l = true ∧ parseHunkHeader l = none)
    (hr : droppedLine r = false) :
    List.lookup 1 (extract_content_with_line_map s).2 = some L
    ∧ (splitNl (extract_content_with_line_map s).1).head?
        = some (if pyStartsWith "+".toList r then r.tail else r) := by
  have hnl : ∀ l ∈ splitNl s, '\n' ∉ l := splitNl_no_newline s
  have hrnl : '\n' ∉ r := by
    apply hnl
    rw [hsplit]
    exact List.mem_append_right _ (List.mem_cons_of_mem _
      (List.mem_append_right _ (List.mem_cons_self r post)))
  have hpostnl : ∀ l ∈ post, '\n' ∉ l := by
    intro l hl
    apply hnl
    rw [hsplit]
    exact List.mem_append_right _ (List.mem_cons_of_mem _
      (List.mem_append_right _ (List.mem_cons_of_mem r hl)))
  obtain ⟨hm, hh, hf, hne, hnlf⟩ := extractFold_decomposition pre mid post
    hunk r L hpre hhunk hmid hr hrnl hpostnl
  have hex : extract_content_with_line_map s
      = (joinNl ((pre ++ hunk :: (mid ++ r :: post)).foldl extractStep
          ⟨[], [], 1, false⟩).lines,
        ((pre ++ hunk :: (mid ++ r :: post)).foldl extractStep
          ⟨[], [], 1, false⟩).line_map) := by
    unfold extract_content_with_line_map
    rw [hsplit]
    dsimp only
    rw [if_pos hf]
  rw [hex]
  refine ⟨hm, ?_⟩
  rw [splitNl_joinNl _ hne hnlf]
  exact hh

/-- Claim C7 (witness): the amended statement applied to a block whose
header lines all precede the hunk `@@ -10,3 +10,4 @@`; the first retained
line (the context line) maps to original line 10. -/
theorem c7_witness :
    List.lookup 1 (extract_content_with_line_map
      "--- a/f.py\n+++ b/f.py\n@@ -10,3 +10,4 @@\n ctx\n+add".toList).2
      = some 10 :=
  (c7_first_retained_maps_to_start
    "--- a/f.py\n+++ b/f.py\n@@ -10,3 +10,4 @@\n ctx\n+add".toList
    ["--- a/f.py".toList, "+++ b/f.py".toList] [] ["+add".toList]
    "@@ -10,3 +10,4 @@".toList " ctx".toList 10
    (by decide) (by decide) rfl (by decide) (by decide)).1

/-- Claim C10 (witness): the raw-input behaviour evaluated on `a\n+b\n-c`:
the `-` line is dropped, the `+` marker is stripped, the map is the
identity, and the content differs from the input. -/
theorem c10_witness :
    (extract_content_with_line_map "a\n+b\n-c".toList).1 = "a\nb".toList
    ∧ (extract_content_with_line_map "a\n+b\n-c".toList).2 = [(1, 1), (2, 2)]
    ∧ (extract_content_with_line_map "a\n+b\n-c".toList).1
        ≠ "a\n+b\n-c".toList := by
  have h := c10_raw_input_behavior "a\n+b\n-c".toList (by decide)
  refine ⟨?_, ?_, ?_⟩
  · rw [h.1]
    decide
  · rw [h.2.1]
    decide
  · intro heq
    have hcl := h.2.2.mp heq
    exact absurd (hcl "+b".toList (by decide)).1 (by decide)

/-! Lemmas about `RuleEngine.review` and its summary. -/

theorem exists_match3 (a b c r : List Char) :
    ∃ t, a ++ (b ++ (c ++ r)) = a ++ (b ++ (c ++ t)) := ⟨r, rfl⟩

theorem exists_matchTail2 (w d a : List Char) :
    ∃ u, w ++ (d ++ a) = u ++ a := ⟨w ++ d, by simp [List.append_assoc]⟩

theorem generate_summary_found (comments : List ReviewComment) (K : Nat)
    (hne : comments ≠ []) :
    ∃ t, generate_summary comments K
      = ("Found ".toList ++ (Nat.repr comments.length).toList
          ++ " issue".toList) ++ t := by
  unfold generate_summary
  rw [if_neg hne]
  dsimp only
  split <;> split <;>
    (simp only [List.append_assoc]; exact exists_match3 _ _ _ _)

theorem generate_summary_showing (comments : List ReviewComment) (K : Nat)
    (hne : comments ≠ []) (hK : comments.length > K) :
    ∃ u, generate_summary comments K
      = u ++ (" (showing first ".toList ++ (Nat.repr K).toList ++ [')']) := by
  unfold generate_summary
  rw [if_neg hne]
  dsimp only
  rw [if_pos hK]
  simp only [List.append_assoc]
  exact exists_matchTail2 _ _ _

/-- Claim C4 (confirmed): `RuleEngine.review` returns exactly the first
`min(M, K)` entries of the full (file order, rule order, emission order)
sequence as comments; the summary is computed from the full untruncated
sequence, begins with its true total `M`, and when `M > K` ends with the
`(showing first K)` note. -/
theorem c4_truncation (rules : List Rule) (files : List FileDiff) (K : Nat) :
    (review rules ⟨⟨files⟩, K⟩).comments = (allComments rules files).take K
    ∧ (review rules ⟨⟨files⟩, K⟩).comments.length
        = min K (allComments rules files).length
    ∧ (review rules ⟨⟨files⟩, K⟩).summary
        = generate_summary (allComments rules files) K
    ∧ ((allComments rules files) ≠ [] →
        ∃ t, (review rules ⟨⟨files⟩, K⟩).summary
          = ("Found ".toList
              ++ (Nat.repr (allComments rules files).length).toList
              ++ " issue".toList) ++ t)
    ∧ ((allComments rules files).length > K →
        ∃ u, (review rules ⟨⟨files⟩, K⟩).summary
          = u ++ (" (showing first ".toList ++ (Nat.repr K).toList
              ++ [')'])) := by
  refine ⟨rfl, ?_, rfl, ?_, ?_⟩
  · show ((allComments rules files).take K).length = _
    rw [List.length_take]
  · intro hne
    exact generate_summary_found (allComments rules files) K hne
  · intro hK
    exact generate_summary_showing (allComments rules files) K
      (by intro h0; rw [h0] at hK; simp at hK) hK

/-- Claim C4 (witness): the truncation facts applied at a concrete context
with two raw matches and `max_comments = 1`. -/
theorem c4_witness :
    (review [wRuleTwo] ⟨⟨[wFile]⟩, 1⟩).comments.length
        = min 1 (allComments [wRuleTwo] [wFile]).length
    ∧ ∃ u, (review [wRuleTwo] ⟨⟨[wFile]⟩, 1⟩).summary
        = u ++ (" (showing first ".toList ++ (Nat.repr 1).toList ++ [')']) :=
  ⟨(c4_truncation [wRuleTwo] [wFile] 1).2.1,
   (c4_truncation [wRuleTwo] [wFile] 1).2.2.2.2 (by decide)⟩

/-- Claim C9 (confirmed): `has_severe_issues` is computed over the
post-truncation comments only: when no HIGH/CRITICAL match lies in the first
`K` entries of the full sequence it is `false`, even though the untruncated
sequence contains severe matches and the summary counts them. -/
theorem c9_severe_only_post_truncation (rules : List Rule)
    (files : List FileDiff) (K : Nat)
    (h1 : (((allComments rules files).take K).all
        fun c => !(isSevere c)) = true)
    (h2 : ∃ c ∈ allComments rules files, isSevere c = true) :
    has_severe_issues (review rules ⟨⟨files⟩, K⟩) = false
    ∧ 0 < (allComments rules files).countP isSevere := by
  constructor
  · show ((allComments rules files).take K).any isSevere = false
    rw [List.any_eq_false]
    intro c hc
    have hall := List.all_eq_true.mp h1 c hc
    simp only [Bool.not_eq_true'] at hall
    simp [hall]
  · rw [List.countP_pos_iff]
    obtain ⟨c, hc, hs⟩ := h2
    exact ⟨c, hc, hs⟩

/-- Claim C9 (witness): with a rule emitting INFO then HIGH and
`max_comments = 1`, the visible comments contain no severe entry, so
`has_severe_issues` is `false` while the full sequence counts one severe
match. -/
theorem c9_witness :
    has_severe_issues (review [wRuleTwo] ⟨⟨[wFile]⟩, 1⟩) = false
    ∧ 0 < (allComments [wRuleTwo] [wFile]).countP isSevere :=
  c9_severe_only_post_truncation [wRuleTwo] [wFile] 1 (by decide) (by decide)

/-! Lemmas about `reviewE` (Python exception flow). -/

theorem runRulesE_error {ε : Type} (lm : List (Nat × Nat))
    (path content : List Char) :
    ∀ (rules : List (RuleE ε)) (e : ε),
    runRulesE lm path content rules = Except.error e →
    ∃ r ∈ rules, r.check path content = Except.error e := by
  intro rules
  induction rules with
  | nil =>
    intro e h
    simp [runRulesE] at h
  | cons r rs ih =>
    intro e h
    unfold runRulesE at h
    cases hc : r.check path content with
    | error e' =>
      rw [hc] at h
      simp only [Except.error.injEq] at h
      subst h
      exact ⟨r, List.mem_cons_self r rs, hc⟩
    | ok ms =>
      rw [hc] at h
      dsimp only at h
      cases hrec : runRulesE lm path content rs with
      | error e' =>
        rw [hrec] at h
        simp only [Except.error.injEq] at h
        subst h
        obtain ⟨r', hr', hcheck⟩ := ih e' hrec
        exact ⟨r', List.mem_cons_of_mem r hr', hcheck⟩
      | ok rest =>
        rw [hrec] at h
        simp at h

theorem allCommentsE_error {ε : Type} (rules : List (RuleE ε)) :
    ∀ (files : List FileDiff) (e : ε),
    allCommentsE rules files = Except.error e →
    ∃ fd ∈ files, fd.is_deleted = false ∧
      runRulesE (extract_content_with_line_map fd.content).2 fd.path
        (extract_content_with_line_map fd.content).1 rules
        = Except.error e := by
  intro files
  induction files with
  | nil =>
    intro e h
    simp [allCommentsE] at h
  | cons fd rest ih =>
    intro e h
    unfold allCommentsE at h
    by_cases hdel : fd.is_deleted = true
    · rw [if_pos hdel] at h
      obtain ⟨fd', hmem, hd, hrun⟩ := ih e h
      exact ⟨fd', List.mem_cons_of_mem _ hmem, hd, hrun⟩
    · have hdel' : fd.is_deleted = false := by simpa using hdel
      rw [if_neg hdel] at h
      cases hrun : runRulesE (extract_content_with_line_map fd.content).2
          fd.path (extract_content_with_line_map fd.content).1 rules with
      | error e' =>
        rw [hrun] at h
        simp only [Except.error.injEq] at h
        subst h
        exact ⟨fd, List.mem_cons_self fd rest, hdel', hrun⟩
      | ok cs =>
        rw [hrun] at h
        dsimp only at h
        cases hall : allCommentsE rules rest with
        | error e' =>
          rw [hall] at h
          simp only [Except.error.injEq] at h
          subst h
          obtain ⟨fd', hmem, hd, hrun'⟩ := ih e' hall
          exact ⟨fd', List.mem_cons_of_mem _ hmem, hd, hrun'⟩
        | ok more =>
          rw [hall] at h
          simp at h

/-- Claim C3 (counterexample): a rule raising the bare error `boom` aborts
the run, but the propagated error is exactly `boom`, with no mention of the
failing rule's identifier `TEST001` anywhere in it — the error is not
tagged. -/
theorem c3_counterexample :
    reviewE [eRule] ⟨⟨[wFile]⟩, 20⟩ = Except.error "boom".toList
    ∧ ¬ ∃ u v, u ++ "TEST001".toList ++ v = "boom".toList := by
  refine ⟨rfl, ?_⟩
  rintro ⟨u, v, h⟩
  have hlen := congrArg List.length h
  simp only [List.length_append] at hlen
  simp at hlen
  omega

/-- Claim C3 (amended): if an active rule's `check` raises during
`RuleEngine.review`, the run aborts with no `ReviewResult`, and the
propagated error is exactly the error raised by a failing rule's `check` on
a non-deleted file, passed through unmodified; nothing tags it with the
rule's identifier. -/
theorem c3_error_propagates_unchanged {ε : Type} (rules : List (RuleE ε))
    (files : List FileDiff) (K : Nat) (e : ε)
    (h : reviewE rules ⟨⟨files⟩, K⟩ = Except.error e) :
    ∃ fd ∈ files, fd.is_deleted = false ∧ ∃ r ∈ rules,
      r.check fd.path (extract_content_with_line_map fd.content).1
        = Except.error e := by
  unfold reviewE at h
  dsimp only at h
  cases hall : allCommentsE rules files with
  | error e' =>
    rw [hall] at h
    simp only [Except.error.injEq] at h
    subst h
    obtain ⟨fd, hmem, hdel, hrun⟩ := allCommentsE_error rules files e' hall
    obtain ⟨r, hr, hcheck⟩ := runRulesE_error _ _ _ rules e' hrun
    exact ⟨fd, hmem, hdel, r, hr, hcheck⟩
  | ok all =>
    rw [hall] at h
    simp at h

/-- Claim C3 (witness): the amended statement applied to the concrete
raising rule: the propagated error `boom` is the rule's own error. -/
theorem c3_witness :
    ∃ fd ∈ [wFile], fd.is_deleted = false ∧ ∃ r ∈ [eRule],
      r.check fd.path (extract_content_with_line_map fd.content).1
        = Except.error "boom".toList :=
  c3_error_propagates_unchanged [eRule] [wFile] 20 "boom".toList rfl

/-- Claim C8 (confirmed): `_filter_with_fallback` removes a path whenever
any component — including the final filename component — equals a name in
`_FALLBACK_EXCLUDES`, and keeps it otherwise. -/
theorem c8_filter_components (paths : List PathT) (p : PathT) :
    p ∈ filter_with_fallback paths ↔
      (p ∈ paths ∧ ∀ part ∈ p, ¬ part ∈ FALLBACK_EXCLUDES) := by
  unfold filter_with_fallback
  rw [List.mem_filter]
  have hiff : fallbackOk p = true ↔ ∀ part ∈ p, ¬ part ∈ FALLBACK_EXCLUDES := by
    unfold fallbackOk
    rw [Bool.not_eq_true']
    rw [List.any_eq_false]
    constructor
    · intro hall part hpart hmem
      exact absurd (List.elem_eq_true_of_mem hmem) (by simpa using hall part hpart)
    · intro hall part hpart
      simp only [Bool.not_eq_true]
      rw [← Bool.not_eq_true]
      intro hcont
      exact hall part hpart (List.mem_of_elem_eq_true hcont)
  rw [hiff]

/-- Claim C8 (witness): a regular file literally named `build`, not inside
any excluded directory, is itself excluded. -/
theorem c8_witness :
    ¬ p8 ∈ filter_with_fallback [p8]
    ∧ "build".toList ∈ FALLBACK_EXCLUDES := by
  refine ⟨?_, by decide⟩
  intro hm
  exact absurd (by decide)
    (((c8_filter_components [p8] p8).mp hm).2 "build".toList (by decide))

/-! Lemmas about the grouping phase of `_filter_ignored_paths`. -/

theorem groupLook_appendToGroup_same (gs : List (PathT × List PathT))
    (r : PathT) (p : PathT) :
    groupLook (appendToGroup gs r p) r = groupLook gs r ++ [p] := by
  induction gs with
  | nil => simp [appendToGroup, groupLook]
  | cons g rest ih =>
    obtain ⟨r', ps⟩ := g
    by_cases hr : r' = r
    · subst hr
      simp [appendToGroup, groupLook]
    · simp [appendToGroup, groupLook, hr, ih]

theorem groupLook_appendToGroup_other (gs : List (PathT × List PathT))
    (r r₀ p : PathT) (h : r₀ ≠ r) :
    groupLook (appendToGroup gs r p) r₀ = groupLook gs r₀ := by
  induction gs with
  | nil =>
    simp only [appendToGroup, groupLook]
    rw [if_neg (fun hh => h hh.symm)]
  | cons g rest ih =>
    obtain ⟨r', ps⟩ := g
    by_cases hr : r' = r
    · subst hr
      simp only [appendToGroup, if_pos rfl, groupLook]
      rw [if_neg (fun hh => h hh.symm), if_neg (fun hh => h hh.symm)]
    · simp only [appendToGroup, if_neg hr, groupLook, ih]

theorem appendToGroup_entries (env : IgnoreEnv)
    (gs : List (PathT × List PathT)) (r p : PathT)
    (h : ∀ g ∈ gs, ∀ q ∈ g.2, env.gitRootOf q = some g.1)
    (hp : env.gitRootOf p = some r) :
    ∀ g ∈ appendToGroup gs r p, ∀ q ∈ g.2, env.gitRootOf q = some g.1 := by
  induction gs with
  | nil =>
    intro g hg q hq
    simp only [appendToGroup, List.mem_singleton] at hg
    subst hg
    simp only [List.mem_singleton] at hq
    subst hq
    exact hp
  | cons g0 rest ih =>
    obtain ⟨r', ps⟩ := g0
    intro g hg
    by_cases hr : r' = r
    · subst hr
      rw [show appendToGroup ((r', ps) :: rest) r' p
          = (r', ps ++ [p]) :: rest from by simp [appendToGroup]] at hg
      rcases List.mem_cons.mp hg with rfl | hg2
      · intro q hq
        dsimp only at hq ⊢
        rcases List.mem_append.mp hq with hq2 | hq2
        · exact h (r', ps) (List.mem_cons_self _ _) q hq2
        · simp only [List.mem_singleton] at hq2
          subst hq2
          exact hp
      · exact h g (List.mem_cons_of_mem _ hg2)
    · rw [show appendToGroup ((r', ps) :: rest) r p
          = (r', ps) :: appendToGroup rest r p from by
          simp [appendToGroup, hr]] at hg
      rcases List.mem_cons.mp hg with rfl | hg2
      · exact h (r', ps) (List.mem_cons_self _ _)
      · exact ih (fun g1 hg1 => h g1 (List.mem_cons_of_mem _ hg1)) g hg2

theorem appendToGroup_keys (gs : List (PathT × List PathT)) (r p : PathT) :
    (appendToGroup gs r p).map Prod.fst = gs.map Prod.fst
    ∨ ((appendToGroup gs r p).map Prod.fst = gs.map Prod.fst ++ [r]
        ∧ ¬ r ∈ gs.map Prod.fst) := by
  induction gs with
  | nil => exact Or.inr ⟨rfl, by simp⟩
  | cons g0 rest ih =>
    obtain ⟨r', ps⟩ := g0
    by_cases hr : r' = r
    · subst hr
      exact Or.inl (by simp [appendToGroup])
    · rcases ih with he | ⟨he, hm⟩
      · exact Or.inl (by simp [appendToGroup, if_neg hr, he])
      · refine Or.inr ⟨by simp [appendToGroup, if_neg hr, he], ?_⟩
        simp only [List.map_cons, List.mem_cons]
        rintro (h0 | h0)
        · exact hr h0.symm
        · exact hm h0

theorem appendToGroup_keys_nodup (gs : List (PathT × List PathT))
    (r p : PathT) (h : (gs.map Prod.fst).Nodup) :
    ((appendToGroup gs r p).map Prod.fst).Nodup := by
  rcases appendToGroup_keys gs r p with he | ⟨he, hm⟩
  · rw [he]; exact h
  · rw [he, List.nodup_append]
    exact ⟨h, List.nodup_singleton r,
      fun a ha hb => by simp at hb; subst hb; exact hm ha⟩

theorem entry_groupLook (gs : List (PathT × List PathT))
    (h : (gs.map Prod.fst).Nodup) (r : PathT) (ps : List PathT)
    (hmem : (r, ps) ∈ gs) : groupLook gs r = ps := by
  induction gs with
  | nil => simp at hmem
  | cons g0 rest ih =>
    obtain ⟨r₀, ps₀⟩ := g0
    rcases List.mem_cons.mp hmem with heq | hmem2
    · obtain ⟨h1, h2⟩ := Prod.mk.injEq .. ▸ heq
      simp only [groupLook]
      rw [if_pos h1.symm]
      exact h2.symm
    · have hkey : r ∈ rest.map Prod.fst :=
        List.mem_map.mpr ⟨(r, ps), hmem2, rfl⟩
      have hne : r₀ ≠ r := by
        intro h0
        subst h0
        exact (List.nodup_cons.mp (by simpa using h)).1 hkey
      simp only [groupLook]
      rw [if_neg hne]
      exact ih (List.nodup_cons.mp (by simpa using h)).2 hmem2

theorem groupLook_mem (gs : List (PathT × List PathT)) (r : PathT)
    (h : groupLook gs r ≠ []) : (r, groupLook gs r) ∈ gs := by
  induction gs with
  | nil => simp [groupLook] at h
  | cons g0 rest ih =>
    obtain ⟨r₀, ps₀⟩ := g0
    by_cases hr : r₀ = r
    · subst hr
      simp only [groupLook, if_pos rfl]
      exact List.mem_cons_self _ _
    · simp only [groupLook, if_neg hr] at h ⊢
      exact List.mem_cons_of_mem _ (ih h)

theorem groupFold_look (env : IgnoreEnv) :
    ∀ (rest : List PathT) (acc : List (PathT × List PathT) × List PathT)
      (r : PathT),
    groupLook ((rest.foldl (groupStep env) acc).1) r
      = groupLook acc.1 r
        ++ rest.filter (fun q => decide (env.gitRootOf q = some r)) := by
  intro rest
  induction rest with
  | nil => intro acc r; simp
  | cons q rest ih =>
    intro acc r
    rw [List.foldl_cons, ih, List.filter_cons]
    cases hq : env.gitRootOf q with
    | some r₀ =>
      by_cases hr : r₀ = r
      · subst hr
        rw [if_pos (by simp [hq])]
        simp only [groupStep, hq]
        rw [groupLook_appendToGroup_same]
        simp
      · rw [if_neg (by simp [hq, hr])]
        simp only [groupStep, hq]
        rw [groupLook_appendToGroup_other _ _ _ _ (fun h0 => hr h0.symm)]
    | none =>
      rw [if_neg (by simp [hq])]
      simp only [groupStep, hq]

theorem groupFold_fallback (env : IgnoreEnv) :
    ∀ (rest : List PathT) (acc : List (PathT × List PathT) × List PathT),
    (rest.foldl (groupStep env) acc).2
      = acc.2 ++ rest.filter (fun q => decide (env.gitRootOf q = none)) := by
  intro rest
  induction rest with
  | nil => intro acc; simp
  | cons q rest ih =>
    intro acc
    rw [List.foldl_cons, ih, List.filter_cons]
    cases hq : env.gitRootOf q with
    | some r₀ =>
      rw [if_neg (by simp [hq])]
      simp only [groupStep, hq]
    | none =>
      rw [if_pos (by simp [hq])]
      simp only [groupStep, hq]
      simp

theorem groupFold_entries (env : IgnoreEnv) :
    ∀ (rest : List PathT) (acc : List (PathT × List PathT) × List PathT),
    (∀ g ∈ acc.1, ∀ q ∈ g.2, env.gitRootOf q = some g.1) →
    ∀ g ∈ (rest.foldl (groupStep env) acc).1, ∀ q ∈ g.2,
      env.gitRootOf q = some g.1 := by
  intro rest
  induction rest with
  | nil => intro acc h; exact h
  | cons q rest ih =>
    intro acc h
    rw [List.foldl_cons]
    apply ih
    cases hq : env.gitRootOf q with
    | some r₀ =>
      simp only [groupStep, hq]
      exact appendToGroup_entries env acc.1 r₀ q h hq
    | none =>
      simp only [groupStep, hq]
      exact h

theorem groupFold_keys (env : IgnoreEnv) :
    ∀ (rest : List PathT) (acc : List (PathT × List PathT) × List PathT),
    (acc.1.map Prod.fst).Nodup →
    (((rest.foldl (groupStep env) acc).1).map Prod.fst).Nodup := by
  intro rest
  induction rest with
  | nil => intro acc h; exact h
  | cons q rest ih =>
    intro acc h
    rw [List.foldl_cons]
    apply ih
    cases hq : env.gitRootOf q with
    | some r₀ =>
      simp only [groupStep, hq]
      exact appendToGroup_keys_nodup acc.1 r₀ q h
    | none =>
      simp only [groupStep, hq]
      exact h

theorem gitFilteredAll_mem (env : IgnoreEnv) :
    ∀ (gs : List (PathT × List PathT)) (q : PathT),
    q ∈ gitFilteredAll env gs ↔ ∃ g ∈ gs, q ∈ filter_with_git env g.2 g.1 := by
  intro gs
  induction gs with
  | nil => intro q; simp [gitFilteredAll]
  | cons g0 rest ih =>
    intro q
    simp only [gitFilteredAll, List.mem_append, ih, List.mem_cons]
    constructor
    · rintro (hq | ⟨g, hg, hq⟩)
      · exact ⟨g0, Or.inl rfl, hq⟩
      · exact ⟨g, Or.inr hg, hq⟩
    · rintro ⟨g, hg | hg, hq⟩
      · subst hg; exact Or.inl hq
      · exact Or.inr ⟨g, hg, hq⟩

/-! Lemmas about the `path_map` of `_filter_with_git`. -/

theorem lookup_mem_pm (pm : List (List Char × PathT)) (k : List Char)
    (v : PathT) (h : List.lookup k pm = some v) : (k, v) ∈ pm := by
  induction pm with
  | nil => simp [List.lookup] at h
  | cons kv rest ih =>
    obtain ⟨k₀, v₀⟩ := kv
    by_cases hb : (k == k₀) = true
    · simp only [List.lookup, hb] at h
      have hk : k = k₀ := by simpa using hb
      subst hk
      simp only [Option.some.injEq] at h
      subst h
      exact List.mem_cons_self _ _
    · have hb' : (k == k₀) = false := by simpa using hb
      simp only [List.lookup, hb'] at h
      exact List.mem_cons_of_mem _ (ih h)

theorem mem_lookup_isSome (pm : List (List Char × PathT)) (k : List Char)
    (v : PathT) (h : (k, v) ∈ pm) : (List.lookup k pm).isSome = true := by
  induction pm with
  | nil => simp at h
  | cons kv rest ih =>
    obtain ⟨k₀, v₀⟩ := kv
    rcases List.mem_cons.mp h with heq | hmem
    · obtain ⟨h1, h2⟩ := Prod.mk.injEq .. ▸ heq
      subst h1
      simp [List.lookup]
    · by_cases hb : (k == k₀) = true
      · simp only [List.lookup, hb]
        simp
      · have hb' : (k == k₀) = false := by simpa using hb
        simp only [List.lookup, hb']
        exact ih hmem

theorem dictInsert_mem_decomp (pm : List (List Char × PathT))
    (k : List Char) (v : PathT) (kv : List Char × PathT)
    (h : kv ∈ dictInsert pm k v) : kv ∈ pm ∨ kv = (k, v) := by
  unfold dictInsert at h
  split at h
  · obtain ⟨kv', hkv', heq⟩ := List.mem_map.mp h
    by_cases hk : kv'.1 = k
    · rw [if_pos hk] at heq
      exact Or.inr heq.symm
    · rw [if_neg hk] at heq
      subst heq
      exact Or.inl hkv'
  · rcases List.mem_append.mp h with hm | hm
    · exact Or.inl hm
    · simp only [List.mem_singleton] at hm
      exact Or.inr hm

theorem dictInsert_mem_self (pm : List (List Char × PathT)) (k : List Char)
    (v : PathT) : (k, v) ∈ dictInsert pm k v := by
  unfold dictInsert
  split
  · rename_i hsome
    obtain ⟨v', hv'⟩ := Option.isSome_iff_exists.mp hsome
    have hmem := lookup_mem_pm pm k v' hv'
    exact List.mem_map.mpr ⟨(k, v'), hmem, by simp⟩
  · exact List.mem_append_right _ (List.mem_singleton.mpr rfl)

theorem dictInsert_mem_other (pm : List (List Char × PathT))
    (k : List Char) (v : PathT) (kv : List Char × PathT) (h : kv ∈ pm)
    (hk : kv.1 ≠ k) : kv ∈ dictInsert pm k v := by
  unfold dictInsert
  split
  · exact List.mem_map.mpr ⟨kv, h, by rw [if_neg hk]⟩
  · exact List.mem_append_left _ h

theorem pmFold_sound (root : PathT) (S : List PathT) :
    ∀ (rest : List PathT) (pm : List (List Char × PathT)),
    (∀ kv ∈ pm, relStr root kv.2 = some kv.1 ∧ kv.2 ∈ S) →
    (∀ q ∈ rest, q ∈ S) →
    ∀ kv ∈ rest.foldl (pmStep root) pm,
      relStr root kv.2 = some kv.1 ∧ kv.2 ∈ S := by
  intro rest
  induction rest with
  | nil => intro pm hpm _; exact hpm
  | cons q rest ih =>
    intro pm hpm hrest
    rw [List.foldl_cons]
    apply ih
    · intro kv hkv
      cases hq : relStr root q with
      | none =>
        rw [pmStep, hq] at hkv
        exact hpm kv hkv
      | some rel =>
        rw [pmStep, hq] at hkv
        rcases dictInsert_mem_decomp pm rel q kv hkv with hold | hnew
        · exact hpm kv hold
        · subst hnew
          exact ⟨hq, hrest q (List.mem_cons_self q rest)⟩
    · exact fun x hx => hrest x (List.mem_cons_of_mem q hx)

theorem buildPathMap_spec (ps : List PathT) (root : PathT) :
    ∀ kv ∈ buildPathMap ps root,
      relStr root kv.2 = some kv.1 ∧ kv.2 ∈ ps :=
  pmFold_sound root ps ps [] (by simp) (fun _ hq => hq)

theorem pmFold_complete (root : PathT) (k : List Char) (p : PathT) :
    ∀ (rest : List PathT) (pm : List (List Char × PathT)),
    ((k, p) ∈ pm ∨ (p ∈ rest ∧ relStr root p = some k)) →
    (∀ q ∈ rest, relStr root q = some k → q = p) →
    (k, p) ∈ rest.foldl (pmStep root) pm := by
  intro rest
  induction rest with
  | nil =>
    intro pm hbase _
    rcases hbase with hin | ⟨hp, _⟩
    · exact hin
    · simp at hp
  | cons q rest ih =>
    intro pm hbase huniq
    rw [List.foldl_cons]
    apply ih
    · rcases hbase with hin | ⟨hp, hrel⟩
      · left
        cases hq : relStr root q with
        | none => rw [pmStep, hq]; exact hin
        | some rel =>
          rw [pmStep, hq]
          by_cases hrk : rel = k
          · subst hrk
            have hqp : q = p := huniq q (List.mem_cons_self q rest) hq
            subst hqp
            exact dictInsert_mem_self pm rel q
          · exact dictInsert_mem_other pm rel q (k, p) hin
              (fun h0 => hrk (by simpa using h0.symm))
      · rcases List.mem_cons.mp hp with rfl | hp2
        · left
          rw [pmStep, hrel]
          exact dictInsert_mem_self pm k p
        · right
          exact ⟨hp2, hrel⟩
    · exact fun q' hq' hr => huniq q' (List.mem_cons_of_mem q hq') hr

/-! Lemmas about `_filter_with_git`. -/

theorem filter_with_git_subset (env : IgnoreEnv) (ps : List PathT)
    (root : PathT) : ∀ q ∈ filter_with_git env ps root, q ∈ ps := by
  intro q hq
  unfold filter_with_git at hq
  split at hq
  · simp at hq
  · split at hq
    · simp at hq
    · cases hign : env.checkIgnore root ((buildPathMap ps root).map Prod.fst)
        with
      | none =>
        rw [hign] at hq
        exact hq
      | some ign =>
        rw [hign] at hq
        dsimp only at hq
        obtain ⟨kv, hkvf, hkv2⟩ := List.mem_map.mp hq
        have hkvpm := (List.mem_filter.mp hkvf).1
        obtain ⟨_, hmem⟩ := buildPathMap_spec ps root kv hkvpm
        rw [← hkv2]
        exact hmem

theorem filter_with_git_fail (env : IgnoreEnv) (ps : List PathT)
    (root : PathT) (hne : ps ≠ [])
    (hpm : buildPathMap ps root ≠ [])
    (hfail : env.checkIgnore root ((buildPathMap ps root).map Prod.fst)
      = none) :
    filter_with_git env ps root = ps := by
  unfold filter_with_git
  rw [if_neg hne, if_neg hpm, hfail]

theorem filter_with_git_success_mem (env : IgnoreEnv) (ps : List PathT)
    (root : PathT) (ign : List (List Char)) (p : PathT) (k : List Char)
    (hsucc : env.checkIgnore root ((buildPathMap ps root).map Prod.fst)
      = some ign)
    (hp : p ∈ ps) (hk : relStr root p = some k)
    (huniq : ∀ q ∈ ps, relStr root q = some k → q = p) :
    p ∈ filter_with_git env ps root ↔ ¬ k ∈ ign := by
  have hne : ps ≠ [] := List.ne_nil_of_mem hp
  have hkp : (k, p) ∈ buildPathMap ps root :=
    pmFold_complete root k p ps [] (Or.inr ⟨hp, hk⟩) huniq
  have hpm : buildPathMap ps root ≠ [] := List.ne_nil_of_mem hkp
  unfold filter_with_git
  rw [if_neg hne, if_neg hpm, hsucc]
  dsimp only
  constructor
  · intro hmem hkmem
    obtain ⟨kv, hkvf, hkv2⟩ := List.mem_map.mp hmem
    have hkvpm := (List.mem_filter.mp hkvf).1
    have hcond := (List.mem_filter.mp hkvf).2
    obtain ⟨hrel, _⟩ := buildPathMap_spec ps root kv hkvpm
    have hkeq : kv.1 = k := by
      rw [hkv2, hk] at hrel
      exact (Option.some.inj hrel).symm
    rw [hkeq] at hcond
    exact absurd (List.elem_eq_true_of_mem hkmem) (by simpa using hcond)
  · intro hnk
    apply List.mem_map.mpr
    refine ⟨(k, p), List.mem_filter.mpr ⟨hkp, ?_⟩, rfl⟩
    have hcont : ign.contains k = false := by
      by_cases hb : ign.contains k = true
      · exact absurd (List.mem_of_elem_eq_true hb) hnk
      · simpa using hb
    rw [hcont]
    rfl

/-- Claim C5 (confirmed): per-root fail-open isolation of the ignore filter.
Under the well-formedness facts true of `_find_git_root` and `pathlib`
(a discovered root is an ancestor of its path, and distinct candidate paths
under the same root have distinct relative-path strings): every surviving
path passes the static fallback filter; a candidate whose root's batched
query fails is retained exactly when it passes the fallback filter, while a
candidate whose root's query succeeds is retained exactly when its relative
path is not in that root's ignored set and it passes the fallback filter;
and a candidate with no discoverable root is retained exactly when it
passes the fallback filter. -/
theorem c5_fail_open_per_root (env : IgnoreEnv) (paths : List PathT)
    (hwf : ∀ p ∈ paths, ∀ r, env.gitRootOf p = some r →
      partsPrefix r p = true)
    (hinj : ∀ p q r, p ∈ paths → q ∈ paths → env.gitRootOf p = some r →
      env.gitRootOf q = some r → relStr r p = relStr r q → p = q) :
    (∀ p ∈ filter_ignored_paths env paths, fallbackOk p = true)
    ∧ (∀ p r, p ∈ paths → env.gitRootOf p = some r →
        (env.checkIgnore r (relKeys env paths r) = none →
          (p ∈ filter_ignored_paths env paths ↔ fallbackOk p = true))
        ∧ (∀ ign k, env.checkIgnore r (relKeys env paths r) = some ign →
            relStr r p = some k →
            (p ∈ filter_ignored_paths env paths ↔
              (¬ k ∈ ign ∧ fallbackOk p = true))))
    ∧ (∀ p, p ∈ paths → env.gitRootOf p = none →
        (p ∈ filter_ignored_paths env paths ↔ fallbackOk p = true)) := by
  have hlook : ∀ r, groupLook (groupByRoot env paths).1 r
      = rootGroup env paths r := by
    intro r
    have hg := groupFold_look env paths ([], []) r
    simpa [groupByRoot, rootGroup, groupLook] using hg
  have hentries : ∀ g ∈ (groupByRoot env paths).1, ∀ q ∈ g.2,
      env.gitRootOf q = some g.1 :=
    groupFold_entries env paths ([], []) (by simp)
  have hnodup : ((groupByRoot env paths).1.map Prod.fst).Nodup :=
    groupFold_keys env paths ([], []) (by simp)
  have hfb : (groupByRoot env paths).2
      = paths.filter (fun q => decide (env.gitRootOf q = none)) := by
    simpa [groupByRoot] using groupFold_fallback env paths ([], [])
  refine ⟨?_, ?_, ?_⟩
  · -- fallback always applied
    intro p hp
    unfold filter_ignored_paths at hp
    split at hp
    · simp at hp
    · exact (List.mem_filter.mp hp).2
  · intro p r hp hr
    have hppaths : paths ≠ [] := List.ne_nil_of_mem hp
    have hmain : filter_ignored_paths env paths
        = filter_with_fallback
            (gitFilteredAll env (groupByRoot env paths).1
              ++ (groupByRoot env paths).2) := by
      unfold filter_ignored_paths
      rw [if_neg hppaths]
    have hpnofb : ¬ p ∈ (groupByRoot env paths).2 := by
      rw [hfb]
      intro hmem
      have hdec := (List.mem_filter.mp hmem).2
      rw [hr] at hdec
      simp at hdec
    have hpgrp : p ∈ rootGroup env paths r :=
      List.mem_filter.mpr ⟨hp, by simp [hr]⟩
    have hgrpne : rootGroup env paths r ≠ [] := List.ne_nil_of_mem hpgrp
    have hgrpsub : ∀ q ∈ rootGroup env paths r, q ∈ paths :=
      fun q hq => (List.mem_filter.mp hq).1
    have hgrproot : ∀ q ∈ rootGroup env paths r,
        env.gitRootOf q = some r := by
      intro q hq
      have := (List.mem_filter.mp hq).2
      exact of_decide_eq_true this
    have huniqgen : ∀ (k' : List Char), relStr r p = some k' →
        ∀ q ∈ rootGroup env paths r, relStr r q = some k' → q = p := by
      intro k' hk' q hq hqr
      exact hinj q p r (hgrpsub q hq) hp (hgrproot q hq) hr
        (by rw [hqr, hk'])
    have hmemgit : p ∈ gitFilteredAll env (groupByRoot env paths).1
        ↔ p ∈ filter_with_git env (rootGroup env paths r) r := by
      rw [gitFilteredAll_mem]
      constructor
      · rintro ⟨g, hg, hq⟩
        obtain ⟨r', ps'⟩ := g
        have hsub := filter_with_git_subset env ps' r' p hq
        have hroot' := hentries (r', ps') hg p hsub
        dsimp only at hroot'
        have hre : r' = r := by
          rw [hr] at hroot'
          exact (Option.some.inj hroot').symm
        rw [hre] at hg hq
        have hps' : ps' = rootGroup env paths r := by
          rw [← hlook r]
          exact (entry_groupLook _ hnodup r ps' hg).symm
        rwa [hps'] at hq
      · intro hq
        have hgl : groupLook (groupByRoot env paths).1 r ≠ [] := by
          rw [hlook r]
          exact hgrpne
        refine ⟨(r, groupLook (groupByRoot env paths).1 r),
          groupLook_mem _ r hgl, ?_⟩
        dsimp only
        rw [hlook r]
        exact hq
    have hrelp : ∃ k0, relStr r p = some k0 := by
      unfold relStr
      rw [if_pos (hwf p hp r hr)]
      exact ⟨_, rfl⟩
    obtain ⟨k0, hk0⟩ := hrelp
    have hkp0 : (k0, p) ∈ buildPathMap (rootGroup env paths r) r :=
      pmFold_complete r k0 p (rootGroup env paths r) []
        (Or.inr ⟨hpgrp, hk0⟩) (huniqgen k0 hk0)
    have hpmne : buildPathMap (rootGroup env paths r) r ≠ [] :=
      List.ne_nil_of_mem hkp0
    constructor
    · -- query failure: fail-open for this root
      intro hfail
      have hgeq : filter_with_git env (rootGroup env paths r) r
          = rootGroup env paths r :=
        filter_with_git_fail env _ r hgrpne hpmne hfail
      rw [hmain]
      unfold filter_with_fallback
      rw [List.mem_filter]
      constructor
      · rintro ⟨_, hok⟩
        exact hok
      · intro hok
        refine ⟨List.mem_append.mpr (Or.inl ?_), hok⟩
        apply hmemgit.mpr
        rw [hgeq]
        exact hpgrp
    · -- query success: filtered by this root's result
      intro ign k hsucc hk
      have hkk0 : k0 = k := by
        rw [hk0] at hk
        exact Option.some.inj hk
      subst hkk0
      have hiff2 := filter_with_git_success_mem env (rootGroup env paths r)
        r ign p k0 hsucc hpgrp hk0 (huniqgen k0 hk0)
      rw [hmain]
      unfold filter_with_fallback
      rw [List.mem_filter]
      constructor
      · rintro ⟨hmem, hok⟩
        rcases List.mem_append.mp hmem with hgit | hfb2
        · exact ⟨hiff2.mp (hmemgit.mp hgit), hok⟩
        · exact absurd hfb2 hpnofb
      · rintro ⟨hnk, hok⟩
        exact ⟨List.mem_append.mpr
          (Or.inl (hmemgit.mpr (hiff2.mpr hnk))), hok⟩
  · intro p hp hnone
    have hppaths : paths ≠ [] := List.ne_nil_of_mem hp
    have hmain : filter_ignored_paths env paths
        = filter_with_fallback
            (gitFilteredAll env (groupByRoot env paths).1
              ++ (groupByRoot env paths).2) := by
      unfold filter_ignored_paths
      rw [if_neg hppaths]
    have hfbmem : p ∈ (groupByRoot env paths).2 := by
      rw [hfb]
      exact List.mem_filter.mpr ⟨hp, by simp [hnone]⟩
    rw [hmain]
    unfold filter_with_fallback
    rw [List.mem_filter]
    constructor
    · rintro ⟨_, hok⟩
      exact hok
    · intro hok
      exact ⟨List.mem_append.mpr (Or.inr hfbmem), hok⟩

/-- Claim C5 (witness): two roots and a rootless path; `root1`'s query
fails, so its candidate `a.py` is retained and its candidate under `build/`
is still removed by the fallback filter; `root2`'s query succeeds and
removes `c.py`; the rootless `f.py` survives. -/
theorem c5_witness :
    pa ∈ filter_ignored_paths w5Env w5Paths
    ∧ ¬ pb ∈ filter_ignored_paths w5Env w5Paths
    ∧ ¬ pc ∈ filter_ignored_paths w5Env w5Paths
    ∧ pf ∈ filter_ignored_paths w5Env w5Paths := by
  have hwf : ∀ p ∈ w5Paths, ∀ r, w5Env.gitRootOf p = some r →
      partsPrefix r p = true := by
    intro p hp r h
    simp only [w5Paths, List.mem_cons, List.mem_singleton,
      List.not_mem_nil, or_false] at hp
    rcases hp with rfl | rfl | rfl | rfl
    · rw [show w5Env.gitRootOf pa = some root1 from rfl] at h
      obtain rfl := (Option.some.inj h).symm
      decide
    · rw [show w5Env.gitRootOf pb = some root1 from rfl] at h
      obtain rfl := (Option.some.inj h).symm
      decide
    · rw [show w5Env.gitRootOf pc = some root2 from rfl] at h
      obtain rfl := (Option.some.inj h).symm
      decide
    · rw [show w5Env.gitRootOf pf = none from rfl] at h
      exact absurd h (by simp)
  have hinj : ∀ p q r, p ∈ w5Paths → q ∈ w5Paths →
      w5Env.gitRootOf p = some r → w5Env.gitRootOf q = some r →
      relStr r p = relStr r q → p = q := by
    intro p q r hp hq h1 h2 h3
    simp only [w5Paths, List.mem_cons, List.mem_singleton,
      List.not_mem_nil, or_false] at hp hq
    rcases hp with rfl | rfl | rfl | rfl <;>
      rcases hq with rfl | rfl | rfl | rfl <;>
      first
        | rfl
        | (rw [show w5Env.gitRootOf pf = none from rfl] at h1
           exact absurd h1 (by simp))
        | (rw [show w5Env.gitRootOf pa = some root1 from rfl] at h1
           obtain rfl := (Option.some.inj h1).symm
           first
             | exact absurd h2 (by decide)
             | exact absurd h3 (by decide))
        | (rw [show w5Env.gitRootOf pb = some root1 from rfl] at h1
           obtain rfl := (Option.some.inj h1).symm
           first
             | exact absurd h2 (by decide)
             | exact absurd h3 (by decide))
        | (rw [show w5Env.gitRootOf pc = some root2 from rfl] at h1
           obtain rfl := (Option.some.inj h1).symm
           first
             | exact absurd h2 (by decide)
             | exact absurd h3 (by decide))
  obtain ⟨hfbk, hmid, hroot0⟩ := c5_fail_open_per_root w5Env w5Paths hwf hinj
  have hNone : w5Env.checkIgnore root1 (relKeys w5Env w5Paths root1)
      = none := by decide
  have hSome : w5Env.checkIgnore root2 (relKeys w5Env w5Paths root2)
      = some ["c.py".toList] := by decide
  refine ⟨?_, ?_, ?_, ?_⟩
  · exact ((hmid pa root1 (by decide) (by decide)).1 hNone).mpr (by decide)
  · intro hm
    exact absurd (((hmid pb root1 (by decide) (by decide)).1 hNone).mp hm)
      (by decide)
  · intro hm
    have hc := ((hmid pc root2 (by decide) (by decide)).2
      ["c.py".toList] "c.py".toList hSome (by decide)).mp hm
    exact absurd (by decide : "c.py".toList ∈ ["c.py".toList]) hc.1
  · exact (hroot0 pf (by decide) (by decide)).mpr (by decide)

end Ebert
